import Mathlib

/-!
# ContractCache: a shallow embedding of `mFIX::ContractCache::Impl`

The cache maps a `(ContractID, Symbology)` key to a `Result` and keeps a list of
update subscribers together with a published copy of that list (the mirror).

Embedding conventions

* `m_Contracts` (a `std::map`) is an association list with one entry per key.  The code
  never iterates over the map, so the position of an entry is not observable.
* Calls that leave the class are recorded as events: `m_Context->RequestContractDesc(..)`
  and `entity.callback()`.  An operation returns the calls it makes itself, in program
  order.  What a callback does is not part of the class: in `Update` and `notifyAll` a
  callback is taken to return without calling back into the cache, while `UpdateWith` and
  `notifyAllWith` take the calls that the callbacks make back into the cache as a parameter.
* Operations are applied one at a time; the two mutexes do not appear.  The exception is
  `Racing`, for threads that run `Get` on one key at the same time: there the block of `Get`
  under `m_ContractGuard` is one step and the call into the context after it another, and a
  schedule says which thread takes the next step.
* The owners of the `Impl` (its shared pointers) are counted in `SharedImpl`.
* A `const ContractDesc*` is an `Option`: `none` is the null pointer.
* A node of the `std::list` of subscribers has an identity (`node`).  The `bool&` bound into
  a cancel functor refers to the flag stored inside one node of `m_UpdateCallbacks`; copies
  of the list (the mirror) hold their own copies of the flag.
* Using a reference to a node that `remove_if` has erased is undefined behaviour; the
  embedding returns `none` there.
-/

namespace mFIX

/-- Modelled from the spec: `TradingPlugin::ContractID`, an integral identifier
(declared in `TradingPlugin/BasicTypes.h`, which is not among the sources). -/
abbrev ContractID := Nat

/-- Modelled from the spec: `TradingPlugin::Symbology`, an enumerated symbology tag
(declared in `TradingPlugin/BasicTypes.h`, which is not among the sources). -/
abbrev Symbology := Nat

/-- The symbology tag used by the end-to-end scenario of the specification. -/
def ISIN : Symbology := 1

/-- A `const TradingPlugin::ContractDesc*`: `none` is the null pointer, `some a` points to
the externally owned descriptor `a`. -/
abbrev ContractDescPtr := Option Nat

namespace ContractCache

/-- The smart enum `Status` of `ContractCache.h`. -/
inductive Status where
  | InProgress
  | Ok
  | Error
  deriving DecidableEq

/-- The struct `ContractCache::Result`. -/
structure Result where
  status : Status
  desc : ContractDescPtr
  deriving DecidableEq

/-- The constructor `Result(Status i_Status = Status::Error, const ContractDesc* i_Desc = 0)`
called with one argument. -/
def Result.ofStatus (i_Status : Status) : Result := ⟨i_Status, none⟩

/-- A `boost::function<void ()>` given to `WatchForUpdates`: the function object is
identified by a number, the code only ever copies it and calls it. -/
abbrev OnUpdateCallback := Nat

/-- Calls made by the cache into code outside the class. -/
inductive Event where
  | RequestContractDesc (i_ContractID : ContractID) (i_Symbology : Symbology)
  | callback (node : Nat) (f : OnUpdateCallback)
  deriving DecidableEq

/-- The key type `std::pair<ContractID, Symbology>` of `ContractCacheImpl.h`. -/
abbrev Key := ContractID × Symbology

/-- The container type `std::map<Key, Result>`. -/
abbrev Contracts := List (Key × Result)

/-- The lookup `m_Contracts.find(key)`: `none` stands for `end()`. -/
def Contracts.find : Contracts → Key → Option Result
  | [], _ => none
  | (k, r) :: m, key => if k = key then some r else Contracts.find m key

/-- The call `m_Contracts.insert(value_type(key, r))`: an existing entry is left as it is.
The second component is `.first->second`, the mapped value the returned iterator points to. -/
def Contracts.insert : Contracts → Key → Result → Contracts × Result
  | [], key, r => ([(key, r)], r)
  | (k, r0) :: m, key, r =>
    if k = key then ((k, r0) :: m, r0)
    else ((k, r0) :: (Contracts.insert m key r).1, (Contracts.insert m key r).2)

/-- The statement `m_Contracts[key] = r`: the entry is created when it is absent and
overwritten otherwise. -/
def Contracts.assign : Contracts → Key → Result → Contracts
  | [], key, r => [(key, r)]
  | (k, r0) :: m, key, r =>
    if k = key then (k, r) :: m else (k, r0) :: Contracts.assign m key r

/-- The struct `CallbackEntity`.  The field `node` is the identity of the node of
`m_UpdateCallbacks` the record was first stored in; a copy of the list keeps it, so that an
invocation can be traced back to its subscription. -/
structure CallbackEntity where
  callback : OnUpdateCallback
  isSubscribed : Bool
  node : Nat
  deriving DecidableEq

/-- The container type `std::list<CallbackEntity>`. -/
abbrev UpdateCallbacks := List CallbackEntity

/-- The data members of `ContractCache::Impl`.  `m_UpdateCallbacksMirror` is a shared
pointer: `none` is the empty pointer.  `nextNode` counts the list nodes handed out so far. -/
structure Impl where
  m_UpdateCallbacks : UpdateCallbacks
  m_UpdateCallbacksMirror : Option UpdateCallbacks
  m_Contracts : Contracts
  nextNode : Nat
  deriving DecidableEq

/-- The function object returned by `WatchForUpdates`:
`boost::bind(&Impl::unsubscribe, shared_from_this(), boost::ref(i_IsSubscribed))`.
`isSubscribed` names the list node whose flag the bound reference points into. -/
structure CancelWatchFunc where
  isSubscribed : Nat
  deriving DecidableEq

namespace Impl

/-- The constructor `Impl(i_Context)`: every container is empty and the mirror is null. -/
def ctor : Impl := ⟨[], none, [], 0⟩

/-- What `Get` hands back: the returned `Result`, the outside calls and the new state. -/
structure GetReturn where
  returnedResult : Result
  events : List Event
  impl : Impl
  deriving DecidableEq

/-- The method `Impl::Get` (ContractCacheImpl.cpp, lines 26 to 56). -/
def Get (self : Impl) (i_ContractID : ContractID) (i_Symbology : Symbology) : GetReturn :=
  match Contracts.find self.m_Contracts (i_ContractID, i_Symbology) with
  | some r =>
    -- isFound = true
    ⟨r, [], self⟩
  | none =>
    -- isFound = false: insert, then call the context after the lock is released
    let ins := Contracts.insert self.m_Contracts (i_ContractID, i_Symbology)
      (Result.ofStatus Status.InProgress)
    ⟨ins.2, [Event.RequestContractDesc i_ContractID i_Symbology],
      { self with m_Contracts := ins.1 }⟩

/-- The loop body of `notifyAll` over a loaded snapshot. -/
def notifyEach : UpdateCallbacks → List Event
  | [] => []
  | entity :: rest =>
    if entity.isSubscribed then Event.callback entity.node entity.callback :: notifyEach rest
    else notifyEach rest

/-- The method `Impl::notifyAll` (lines 87 to 100): the invocations it makes. -/
def notifyAll (self : Impl) : List Event :=
  match self.m_UpdateCallbacksMirror with
  | none => []
  | some callbacks => notifyEach callbacks

/-- The method `Impl::Update` (lines 59 to 70): the store is written first, then
`notifyAll` runs on the written state. -/
def Update (self : Impl) (i_ContractID : ContractID) (i_Symbology : Symbology)
    (i_Desc : ContractDescPtr) : List Event × Impl :=
  let written : Impl :=
    { self with
      m_Contracts := Contracts.assign self.m_Contracts (i_ContractID, i_Symbology)
        ⟨if i_Desc.isSome then Status.Ok else Status.Error, i_Desc⟩ }
  (notifyAll written, written)

/-- The method `Impl::createCancelWatchFunctor` (lines 113 to 117). -/
def createCancelWatchFunctor (i_IsSubscribed : Nat) : CancelWatchFunc := ⟨i_IsSubscribed⟩

/-- The method `Impl::WatchForUpdates` (lines 73 to 84): a new node is appended at `end()`
with the flag set by the `CallbackEntity` constructor, and a copy of the list is stored
into the mirror. -/
def WatchForUpdates (self : Impl) (callback : OnUpdateCallback) : CancelWatchFunc × Impl :=
  let entity : CallbackEntity := ⟨callback, true, self.nextNode⟩
  let callbacks := self.m_UpdateCallbacks ++ [entity]
  (createCancelWatchFunctor entity.node,
    { self with
      m_UpdateCallbacks := callbacks
      m_UpdateCallbacksMirror := some callbacks
      nextNode := self.nextNode + 1 })

/-- The method `Impl::checkForDeadSubscribers` (lines 103 to 110): `remove_if` erases the
nodes whose flag is false, then a copy of the list is stored into the mirror. -/
def checkForDeadSubscribers (self : Impl) : Impl :=
  let callbacks := self.m_UpdateCallbacks.filter (fun entity => entity.isSubscribed)
  { self with
    m_UpdateCallbacks := callbacks
    m_UpdateCallbacksMirror := some callbacks }

/-- The assignment `i_IsSubscribed = false` through the bound reference: the flag of the
node named by the reference is cleared.  `none` when the list has no such node any more
(the reference is dangling). -/
def clearFlag : UpdateCallbacks → Nat → Option UpdateCallbacks
  | [], _ => none
  | entity :: rest, ref =>
    if entity.node = ref then some ({ entity with isSubscribed := false } :: rest)
    else (clearFlag rest ref).map (fun rest1 => entity :: rest1)

/-- The static method `Impl::unsubscribe` (lines 120 to 132).  The first argument is the
result of `i_ContractCache.lock()`: `none` when the weak pointer has expired.  The result is
the state of the cache afterwards (`some none`: there is no cache and nothing happened), or
`none` when the assignment goes through a dangling reference. -/
def unsubscribe (i_ContractCache : Option Impl) (i_IsSubscribed : Nat) :
    Option (Option Impl) :=
  match i_ContractCache with
  | none => some none
  | some contractCache =>
    match clearFlag contractCache.m_UpdateCallbacks i_IsSubscribed with
    | none => none
    | some callbacks =>
      some (some (checkForDeadSubscribers { contractCache with m_UpdateCallbacks := callbacks }))

end Impl

/-- Calling a cancel functor while the cache `self` it was created by exists. -/
def CancelWatchFunc.call (f : CancelWatchFunc) (self : Impl) : Option Impl :=
  match Impl.unsubscribe (some self) f.isSubscribed with
  | some (some next) => some next
  | _ => none

/-- One call on the public surface of the cache. -/
inductive Op where
  | Get (i_ContractID : ContractID) (i_Symbology : Symbology)
  | Update (i_ContractID : ContractID) (i_Symbology : Symbology) (i_Desc : ContractDescPtr)
  | WatchForUpdates (callback : OnUpdateCallback)
  | cancel (f : CancelWatchFunc)
  deriving DecidableEq

/-- One operation applied to a state: the events it produces and the next state. -/
def step (self : Impl) : Op → Option (List Event × Impl)
  | Op.Get c y => some ((self.Get c y).events, (self.Get c y).impl)
  | Op.Update c y d => some (self.Update c y d)
  | Op.WatchForUpdates cb => some ([], (self.WatchForUpdates cb).2)
  | Op.cancel f => (f.call self).map (fun next => ([], next))

/-- Operations applied one after another; the events are collected in order. -/
def run : Impl → List Op → Option (List Event × Impl)
  | self, [] => some ([], self)
  | self, op :: ops =>
    match step self op with
    | none => none
    | some (evs, next) =>
      match run next ops with
      | none => none
      | some (tr, last) => some (evs ++ tr, last)

/-- The number of `RequestContractDesc` calls for `key` in a trace. -/
def requestCount (key : Key) (tr : List Event) : Nat :=
  tr.count (Event.RequestContractDesc key.1 key.2)

/-- The key an operation addresses: `Get` and `Update` name one, the others none. -/
def Op.key : Op → Option Key
  | Op.Get c y => some (c, y)
  | Op.Update c y _ => some (c, y)
  | Op.WatchForUpdates _ => none
  | Op.cancel _ => none

/-- Whether the operation is a call of `Get`. -/
def Op.isGet : Op → Bool
  | Op.Get _ _ => true
  | _ => false

/-- Whether the first operation of the history that addresses `key` is a `Get`. -/
def createdByGet : List Op → Key → Bool
  | [], _ => false
  | op :: ops, key => if op.key = some key then op.isGet else createdByGet ops key

/-- Whether some operation of the history addresses `key`. -/
def addressed (ops : List Op) (key : Key) : Bool :=
  ops.any (fun op => decide (op.key = some key))

/-- The invocation `entity.callback()` as an event. -/
def CallbackEntity.invocation (entity : CallbackEntity) : Event :=
  Event.callback entity.node entity.callback

/-- The subscription a record stands for: its number and its callback. -/
def CallbackEntity.subscription (entity : CallbackEntity) : Nat × OnUpdateCallback :=
  (entity.node, entity.callback)

/-- The code and the registry of the specification agree: the state is consistent, as many
nodes were handed out as registrations were counted, and the list holds the subscriptions
that were registered and not cancelled. -/
def Impl.Tracks (self : Impl) (acc : Nat × List (Nat × OnUpdateCallback)) : Prop :=
  (∀ entity ∈ self.m_UpdateCallbacks,
    entity.isSubscribed = true ∧ entity.node < self.nextNode) ∧
  (self.m_UpdateCallbacks.map CallbackEntity.node).Nodup ∧
  self.m_UpdateCallbacksMirror.getD [] = self.m_UpdateCallbacks ∧
  self.nextNode = acc.1 ∧
  self.m_UpdateCallbacks.map CallbackEntity.subscription = acc.2

/-- The registry as the specification describes it, one operation at a time: the number of
registrations so far and the subscriptions (numbered by registration) that were registered
and not cancelled, in registration order. -/
def registryStep (acc : Nat × List (Nat × OnUpdateCallback)) :
    Op → Nat × List (Nat × OnUpdateCallback)
  | Op.WatchForUpdates cb => (acc.1 + 1, acc.2 ++ [(acc.1, cb)])
  | Op.cancel f => (acc.1, acc.2.filter (fun p => decide (p.1 ≠ f.isSubscribed)))
  | _ => acc

/-- The registered, not yet cancelled subscriptions after a history of operations on a
fresh cache, in registration order. -/
def liveSubscriptions (ops : List Op) : List (Nat × OnUpdateCallback) :=
  (ops.foldl registryStep (0, [])).2

/-- Whether every cancel functor called in `ops` belongs, at the time of the call, to a
subscription that was registered and not cancelled yet; `acc` is the registry at the start. -/
def handlesLive (acc : Nat × List (Nat × OnUpdateCallback)) : List Op → Bool
  | [] => true
  | Op.cancel f :: ops =>
    decide (f.isSubscribed ∈ acc.2.map Prod.fst) && handlesLive (registryStep acc (Op.cancel f)) ops
  | op :: ops => handlesLive (registryStep acc op) ops

/-- The entry of `k` after an operation, given the store `m` before it. -/
def Op.findAfter (op : Op) (m : Contracts) (k : Key) : Option Result :=
  match op with
  | Op.Get c y =>
    if k = (c, y) then some ((Contracts.find m (c, y)).getD ⟨Status.InProgress, none⟩)
    else Contracts.find m k
  | Op.Update c y d =>
    if k = (c, y) then some ⟨if d.isSome then Status.Ok else Status.Error, d⟩
    else Contracts.find m k
  | Op.WatchForUpdates _ => Contracts.find m k
  | Op.cancel _ => Contracts.find m k

/-- The registrations of a history in the order they were made, numbered from `n`: the
number is the one the cancel functor returned by that `WatchForUpdates` carries. -/
def registrationsFrom (n : Nat) : List Op → List (Nat × OnUpdateCallback)
  | [] => []
  | Op.WatchForUpdates cb :: ops => (n, cb) :: registrationsFrom (n + 1) ops
  | _ :: ops => registrationsFrom n ops

/-- The registrations of a history on a fresh cache. -/
def registrations (ops : List Op) : List (Nat × OnUpdateCallback) := registrationsFrom 0 ops

/-- The subscriptions of a history whose handle was never cancelled, in registration
order. -/
def neverCancelled (ops : List Op) : List (Nat × OnUpdateCallback) :=
  (registrations ops).filter (fun p => decide (Op.cancel ⟨p.1⟩ ∉ ops))

/-- A call that a callback makes back into the cache while it runs: a lookup, a
registration or the call of a cancel functor.  (A callback that calls `Update` starts a
notification pass of its own inside the running one; that nesting is not followed here.) -/
inductive Reentry where
  | Get (i_ContractID : ContractID) (i_Symbology : Symbology)
  | WatchForUpdates (callback : OnUpdateCallback)
  | cancel (f : CancelWatchFunc)
  deriving DecidableEq

/-- What is observed while a notification pass runs: the outside calls of the cache, and
the `Result` that a `Get` made by a callback returns. -/
inductive Observation where
  | call (ev : Event)
  | returned (i_ContractID : ContractID) (i_Symbology : Symbology) (r : Result)
  deriving DecidableEq

/-- One call made by a callback, applied to the state the callback finds. -/
def Reentry.exec (self : Impl) : Reentry → Option (List Observation × Impl)
  | Reentry.Get c y =>
    some ((self.Get c y).events.map Observation.call
        ++ [Observation.returned c y (self.Get c y).returnedResult],
      (self.Get c y).impl)
  | Reentry.WatchForUpdates cb => some ([], (self.WatchForUpdates cb).2)
  | Reentry.cancel f => (f.call self).map (fun next => ([], next))

/-- The calls of one callback, one after another. -/
def Reentry.execAll : Impl → List Reentry → Option (List Observation × Impl)
  | self, [] => some ([], self)
  | self, r :: rs =>
    match Reentry.exec self r with
    | none => none
    | some (obs, next) =>
      match Reentry.execAll next rs with
      | none => none
      | some (obs1, last) => some (obs ++ obs1, last)

/-- The loop of `notifyAll` (lines 92 to 98) with callbacks that call back into the cache:
`body` gives the calls each function object makes.  The loop runs over the list that the
loaded shared pointer `callbacks` points to; the flag it tests is the one stored in that
list, and the state is the one the callbacks have left behind so far. -/
def Impl.notifyEachWith (body : OnUpdateCallback → List Reentry) :
    UpdateCallbacks → Impl → Option (List Observation × Impl)
  | [], self => some ([], self)
  | entity :: rest, self =>
    if entity.isSubscribed then
      match Reentry.execAll self (body entity.callback) with
      | none => none
      | some (obs, next) =>
        match Impl.notifyEachWith body rest next with
        | none => none
        | some (obs1, last) =>
          some (Observation.call (Event.callback entity.node entity.callback) :: (obs ++ obs1),
            last)
    else Impl.notifyEachWith body rest self

/-- The method `Impl::notifyAll` (lines 87 to 100) with callbacks that call back. -/
def Impl.notifyAllWith (body : OnUpdateCallback → List Reentry) (self : Impl) :
    Option (List Observation × Impl) :=
  match self.m_UpdateCallbacksMirror with
  | none => some ([], self)
  | some callbacks => Impl.notifyEachWith body callbacks self

/-- The method `Impl::Update` (lines 59 to 70) with callbacks that call back: the store is
written under the lock, then `notifyAll` runs on the written state. -/
def Impl.UpdateWith (body : OnUpdateCallback → List Reentry) (self : Impl)
    (i_ContractID : ContractID) (i_Symbology : Symbology) (i_Desc : ContractDescPtr) :
    Option (List Observation × Impl) :=
  let written : Impl :=
    { self with
      m_Contracts := Contracts.assign self.m_Contracts (i_ContractID, i_Symbology)
        ⟨if i_Desc.isSome then Status.Ok else Status.Error, i_Desc⟩ }
  Impl.notifyAllWith body written

/-- The `Impl` object behind its `boost::shared_ptr`s.  An owner is an object that stores a
`shared_ptr<Impl>`: the member `m_Impl` of the `ContractCache` object (ContractCache.h, line
86) while that object exists, and every cancel functor in existence, because
`createCancelWatchFunctor` (ContractCacheImpl.cpp, lines 115 and 116) hands `boost::bind` the
value of `shared_from_this()`, a `shared_ptr`, and `bind` stores a copy of the argument it is
given; the conversion to the `weak_ptr` parameter of `unsubscribe` is made at each call.
`impl` is `none` once the object has been destroyed, which happens when the last owner
goes. -/
structure SharedImpl where
  impl : Option Impl
  m_Impl : Bool
  functors : Nat
  deriving DecidableEq

/-- The number of owners, `use_count()` of the shared pointers. -/
def SharedImpl.use_count (w : SharedImpl) : Nat := (if w.m_Impl then 1 else 0) + w.functors

/-- The constructor `ContractCache::ContractCache` (ContractCache.cpp, lines 14 to 17):
`m_Impl(new Impl(i_Context))`. -/
def SharedImpl.ctor : SharedImpl := ⟨some Impl.ctor, true, 0⟩

/-- The method `ContractCache::WatchForUpdates` (ContractCache.cpp, lines 34 to 37), which
calls `m_Impl->WatchForUpdates(callback)`; the functor it returns is one more owner.
`none` when there is no `ContractCache` object to call it on. -/
def SharedImpl.WatchForUpdates (w : SharedImpl) (callback : OnUpdateCallback) :
    Option (CancelWatchFunc × SharedImpl) :=
  if w.m_Impl then
    match w.impl with
    | some self =>
      some ((self.WatchForUpdates callback).1,
        ⟨some (self.WatchForUpdates callback).2, true, w.functors + 1⟩)
    | none => none
  else none

/-- The destructor of the `ContractCache` object: `m_Impl` gives up its share, and the
`Impl` is destroyed if no functor owns one. -/
def SharedImpl.dtor (w : SharedImpl) : SharedImpl :=
  ⟨if w.functors = 0 then none else w.impl, false, w.functors⟩

/-- The destruction of one cancel functor: its stored pointer gives up its share. -/
def SharedImpl.dropFunctor (w : SharedImpl) : SharedImpl :=
  ⟨if w.m_Impl = false ∧ w.functors - 1 = 0 then none else w.impl, w.m_Impl, w.functors - 1⟩

/-- The call `i_ContractCache.lock()` on a weak pointer to the `Impl`: the object while it
has an owner. -/
def SharedImpl.lock (w : SharedImpl) : Option Impl :=
  if 0 < w.use_count then w.impl else none

/-- The call of a cancel functor that exists: `unsubscribe` receives a weak pointer made
from the shared pointer stored in the functor.  `none` when there is no functor to call or
the assignment goes through a dangling reference. -/
def SharedImpl.callFunctor (w : SharedImpl) (f : CancelWatchFunc) : Option SharedImpl :=
  if w.functors = 0 then none
  else
    match Impl.unsubscribe w.lock f.isSubscribed with
    | none => none
    | some none => some w
    | some (some next) => some { w with impl := some next }

/-- The registrations of a run, taken from what the code hands back: for every
`WatchForUpdates` call, in order, the functor that the call returned and the records by
which the call made `m_UpdateCallbacks` longer.  The list ends where the run ends. -/
def registeredFrom : Impl → List Op → List (CancelWatchFunc × UpdateCallbacks)
  | _, [] => []
  | self, Op.WatchForUpdates cb :: ops =>
    ((self.WatchForUpdates cb).1,
        (self.WatchForUpdates cb).2.m_UpdateCallbacks.drop self.m_UpdateCallbacks.length)
      :: registeredFrom (self.WatchForUpdates cb).2 ops
  | self, op :: ops =>
    match step self op with
    | none => []
    | some (_, next) => registeredFrom next ops

/-- The block of `Impl::Get` under `scoped_lock lk(m_ContractGuard)` (lines 32 to 48):
`isFound`, `returnedResult` and the state when the lock is released. -/
def Impl.GetLocked (self : Impl) (i_ContractID : ContractID) (i_Symbology : Symbology) :
    Bool × Result × Impl :=
  match Contracts.find self.m_Contracts (i_ContractID, i_Symbology) with
  | some r => (true, r, self)
  | none =>
    let ins := Contracts.insert self.m_Contracts (i_ContractID, i_Symbology)
      (Result.ofStatus Status.InProgress)
    (false, ins.2, { self with m_Contracts := ins.1 })

/-- The rest of `Impl::Get`, after the lock is released (lines 50 to 55): the call into the
context when the key was not found. -/
def Impl.GetUnlocked (isFound : Bool) (i_ContractID : ContractID) (i_Symbology : Symbology) :
    List Event :=
  if !isFound then [Event.RequestContractDesc i_ContractID i_Symbology] else []

/-- Where a thread that has called `Get` stands: it has not taken the lock yet, it has left
the locked block with its `isFound` and `returnedResult`, or `Get` has returned. -/
inductive GetThread where
  | called
  | unlocked (isFound : Bool) (returnedResult : Result)
  | returned (returnedResult : Result)
  deriving DecidableEq

/-- Whether the thread has left the locked block with `isFound` false and has not made its
call into the context yet. -/
def GetThread.owesRequest : GetThread → Bool
  | GetThread.unlocked false _ => true
  | _ => false

/-- One step of an interleaving: thread `i` takes its next step, or another thread applies
`Update` on the same key with descriptor `i_Desc`. -/
inductive Sched where
  | thread (i : Nat)
  | update (i_Desc : ContractDescPtr)
  deriving DecidableEq

/-- The cache shared by threads that run `Get` on one key, the threads, and the outside
calls made so far. -/
structure Racing where
  impl : Impl
  threads : Nat → GetThread
  trace : List Event

/-- One step of an interleaving of `N` threads that run `Get(c, y)`.  The mutex
`m_ContractGuard` makes the locked block of `Get` one step; the call into the context after
it is another.  An `Update` is taken as one step: its write is under the same mutex, and
the notification after it does not touch the store.  A thread that has returned, or a
number that is not one of the `N` threads, takes no step. -/
def Racing.step (N : Nat) (c : ContractID) (y : Symbology) (w : Racing) : Sched → Racing
  | Sched.thread i =>
    if i < N then
      match w.threads i with
      | GetThread.called =>
        ⟨(w.impl.GetLocked c y).2.2,
          fun j => if j = i then
            GetThread.unlocked (w.impl.GetLocked c y).1 (w.impl.GetLocked c y).2.1
          else w.threads j,
          w.trace⟩
      | GetThread.unlocked isFound r =>
        ⟨w.impl, fun j => if j = i then GetThread.returned r else w.threads j,
          w.trace ++ Impl.GetUnlocked isFound c y⟩
      | GetThread.returned _ => w
    else w
  | Sched.update d =>
    ⟨(w.impl.Update c y d).2, w.threads, w.trace ++ (w.impl.Update c y d).1⟩

/-- An interleaving, step by step. -/
def Racing.run (N : Nat) (c : ContractID) (y : Symbology) : Racing → List Sched → Racing
  | w, [] => w
  | w, a :: sch => Racing.run N c y (Racing.step N c y w a) sch

/-- Every thread has called `Get` and none has taken the lock. -/
def Racing.start (self : Impl) : Racing := ⟨self, fun _ => GetThread.called, []⟩

/-- No thread has looked the key up and no `Update` has been applied. -/
def Racing.Fresh (N : Nat) (key : Key) (w : Racing) : Prop :=
  Contracts.find w.impl.m_Contracts key = none ∧ requestCount key w.trace = 0 ∧
    ∀ i, i < N → w.threads i = GetThread.called

/-- The key has an entry and no thread owes a request. -/
def Racing.Settled (N : Nat) (key : Key) (w : Racing) : Prop :=
  (Contracts.find w.impl.m_Contracts key).isSome = true ∧
    ∀ j, j < N → (w.threads j).owesRequest = false

theorem Contracts.find_insert (m : Contracts) (key : Key) (r : Result) (k : Key) :
    Contracts.find (Contracts.insert m key r).1 k =
      if k = key then some ((Contracts.find m key).getD r) else Contracts.find m k := by
  induction m with
  | nil =>
    by_cases h : k = key
    · subst h; simp [Contracts.insert, Contracts.find]
    · have h2 : ¬ key = k := fun e => h e.symm
      simp [Contracts.insert, Contracts.find, h, h2]
  | cons p m ih =>
    obtain ⟨k0, r0⟩ := p
    by_cases h0 : k0 = key
    · subst h0
      by_cases h : k = k0
      · subst h; simp [Contracts.insert, Contracts.find]
      · simp [Contracts.insert, Contracts.find, h]
    · by_cases h : k = key
      · subst h
        simp [Contracts.insert, Contracts.find, h0, ih]
      · by_cases h1 : k0 = k
        · subst h1
          simp [Contracts.insert, Contracts.find, h0]
        · simp [Contracts.insert, Contracts.find, h0, h, h1, ih]

theorem Contracts.insert_snd (m : Contracts) (key : Key) (r : Result) :
    (Contracts.insert m key r).2 = (Contracts.find m key).getD r := by
  induction m with
  | nil => simp [Contracts.insert, Contracts.find]
  | cons p m ih =>
    obtain ⟨k0, r0⟩ := p
    by_cases h0 : k0 = key
    · simp [Contracts.insert, Contracts.find, h0]
    · simp [Contracts.insert, Contracts.find, h0, ih]

theorem Contracts.insert_absent (m : Contracts) (key : Key) (r : Result)
    (h : Contracts.find m key = none) :
    (Contracts.insert m key r).1 = m ++ [(key, r)] := by
  induction m with
  | nil => simp [Contracts.insert]
  | cons p m ih =>
    obtain ⟨k0, r0⟩ := p
    by_cases h0 : k0 = key
    · simp [Contracts.find, h0] at h
    · simp only [Contracts.find, h0, if_false] at h
      simp [Contracts.insert, h0, ih h]

theorem Contracts.find_assign (m : Contracts) (key : Key) (r : Result) (k : Key) :
    Contracts.find (Contracts.assign m key r) k =
      if k = key then some r else Contracts.find m k := by
  induction m with
  | nil =>
    by_cases h : k = key
    · subst h; simp [Contracts.assign, Contracts.find]
    · have h2 : ¬ key = k := fun e => h e.symm
      simp [Contracts.assign, Contracts.find, h, h2]
  | cons p m ih =>
    obtain ⟨k0, r0⟩ := p
    by_cases h0 : k0 = key
    · subst h0
      by_cases h : k = k0
      · subst h; simp [Contracts.assign, Contracts.find]
      · have h2 : ¬ k0 = k := fun e => h e.symm
        simp [Contracts.assign, Contracts.find, h, h2]
    · by_cases h : k = key
      · subst h
        simp [Contracts.assign, Contracts.find, h0, ih]
      · by_cases h1 : k0 = k
        · subst h1
          simp [Contracts.assign, Contracts.find, h0]
        · simp [Contracts.assign, Contracts.find, h0, h, h1, ih]

theorem Impl.Get_hit (self : Impl) (c : ContractID) (y : Symbology) (r : Result)
    (h : Contracts.find self.m_Contracts (c, y) = some r) :
    self.Get c y = ⟨r, [], self⟩ := by
  simp [Impl.Get, h]

theorem Impl.Get_miss (self : Impl) (c : ContractID) (y : Symbology)
    (h : Contracts.find self.m_Contracts (c, y) = none) :
    self.Get c y = ⟨Result.ofStatus Status.InProgress, [Event.RequestContractDesc c y],
      { self with
        m_Contracts := self.m_Contracts ++ [((c, y), Result.ofStatus Status.InProgress)] }⟩ := by
  simp [Impl.Get, h, Contracts.insert_snd, Contracts.insert_absent]

/-- C1. `Get` on a key without an entry returns `{InProgress, null}`, the store afterwards
holds the previous entries plus the key mapped to `{InProgress, null}`, and
`RequestContractDesc` is called exactly once, with the key's ContractID and Symbology; the
subscriber list and the mirror are not touched. -/
theorem C1_Get_miss (self : Impl) (c : ContractID) (y : Symbology)
    (h : Contracts.find self.m_Contracts (c, y) = none) :
    (self.Get c y).returnedResult = ⟨Status.InProgress, none⟩ ∧
    (self.Get c y).impl.m_Contracts = self.m_Contracts ++ [((c, y), ⟨Status.InProgress, none⟩)] ∧
    (∀ k : Key, Contracts.find (self.Get c y).impl.m_Contracts k =
      if k = (c, y) then some ⟨Status.InProgress, none⟩ else Contracts.find self.m_Contracts k) ∧
    (self.Get c y).events = [Event.RequestContractDesc c y] ∧
    (self.Get c y).impl.m_UpdateCallbacks = self.m_UpdateCallbacks ∧
    (self.Get c y).impl.m_UpdateCallbacksMirror = self.m_UpdateCallbacksMirror := by
  refine ⟨?_, ?_, ?_, ?_, ?_, ?_⟩
  · simp [Impl.Get_miss self c y h, Result.ofStatus]
  · simp [Impl.Get_miss self c y h, Result.ofStatus]
  · intro k
    have e := Contracts.find_insert self.m_Contracts (c, y) (Result.ofStatus Status.InProgress) k
    rw [h] at e
    simpa [Impl.Get, h, Result.ofStatus] using e
  · simp [Impl.Get_miss self c y h]
  · simp [Impl.Get_miss self c y h]
  · simp [Impl.Get_miss self c y h]

/-- C1, at a concrete input: a miss on a store that holds another key. -/
theorem C1_Get_miss_witness :
    Contracts.find (⟨[], none, [((3, 0), ⟨Status.Ok, some 5⟩)], 0⟩ : Impl).m_Contracts (7, ISIN)
        = none ∧
      ((⟨[], none, [((3, 0), ⟨Status.Ok, some 5⟩)], 0⟩ : Impl).Get 7 ISIN).events
        = [Event.RequestContractDesc 7 ISIN] :=
  ⟨by decide, (C1_Get_miss ⟨[], none, [((3, 0), ⟨Status.Ok, some 5⟩)], 0⟩ 7 ISIN (by decide)).2.2.2.1⟩

/-- C2. `Get` on a key that has an entry, whatever its status, returns the stored `Result`,
leaves the whole state (store, subscriber list, mirror) as it was and makes no call to
`RequestContractDesc` (it produces no event at all). -/
theorem C2_Get_hit (self : Impl) (c : ContractID) (y : Symbology) (r : Result)
    (h : Contracts.find self.m_Contracts (c, y) = some r) :
    (self.Get c y).returnedResult = r ∧ (self.Get c y).impl = self ∧
    (self.Get c y).events = [] := by
  simp [Impl.Get_hit self c y r h]

/-- C2, at a concrete input: a hit on an entry whose status is Error. -/
theorem C2_Get_hit_witness :
    Contracts.find (⟨[], none, [((7, ISIN), ⟨Status.Error, none⟩)], 0⟩ : Impl).m_Contracts
        (7, ISIN) = some ⟨Status.Error, none⟩ ∧
      ((⟨[], none, [((7, ISIN), ⟨Status.Error, none⟩)], 0⟩ : Impl).Get 7 ISIN).events = [] :=
  ⟨by decide,
    (C2_Get_hit ⟨[], none, [((7, ISIN), ⟨Status.Error, none⟩)], 0⟩ 7 ISIN ⟨Status.Error, none⟩
      (by decide)).2.2⟩

/-! ## Single operations -/

theorem Impl.Get_find (self : Impl) (c : ContractID) (y : Symbology) (k : Key) :
    Contracts.find (self.Get c y).impl.m_Contracts k =
      if k = (c, y) then
        some ((Contracts.find self.m_Contracts (c, y)).getD ⟨Status.InProgress, none⟩)
      else Contracts.find self.m_Contracts k := by
  cases h : Contracts.find self.m_Contracts (c, y) with
  | none =>
    have e := Contracts.find_insert self.m_Contracts (c, y) (Result.ofStatus Status.InProgress) k
    rw [h] at e
    simpa [Impl.Get, h, Result.ofStatus] using e
  | some r =>
    rw [Impl.Get_hit self c y r h]
    by_cases hk : k = (c, y)
    · subst hk; simp [h]
    · simp [hk]

theorem Impl.Get_events (self : Impl) (c : ContractID) (y : Symbology) :
    (self.Get c y).events =
      if (Contracts.find self.m_Contracts (c, y)).isSome then []
      else [Event.RequestContractDesc c y] := by
  cases h : Contracts.find self.m_Contracts (c, y) with
  | none => simp [Impl.Get_miss self c y h]
  | some r => simp [Impl.Get_hit self c y r h]

theorem Impl.Get_registry (self : Impl) (c : ContractID) (y : Symbology) :
    (self.Get c y).impl.m_UpdateCallbacks = self.m_UpdateCallbacks ∧
    (self.Get c y).impl.m_UpdateCallbacksMirror = self.m_UpdateCallbacksMirror ∧
    (self.Get c y).impl.nextNode = self.nextNode := by
  cases h : Contracts.find self.m_Contracts (c, y) with
  | none => simp [Impl.Get_miss self c y h]
  | some r => simp [Impl.Get_hit self c y r h]

theorem Impl.Update_find (self : Impl) (c : ContractID) (y : Symbology) (d : ContractDescPtr)
    (k : Key) :
    Contracts.find (self.Update c y d).2.m_Contracts k =
      if k = (c, y) then some ⟨if d.isSome then Status.Ok else Status.Error, d⟩
      else Contracts.find self.m_Contracts k := by
  simp [Impl.Update, Contracts.find_assign]

theorem Impl.notifyEach_eq_map (l : UpdateCallbacks)
    (h : ∀ entity ∈ l, entity.isSubscribed = true) :
    Impl.notifyEach l = l.map CallbackEntity.invocation := by
  induction l with
  | nil => rfl
  | cons e l ih =>
    have he : e.isSubscribed = true := h e (List.mem_cons_self e l)
    have hl : ∀ entity ∈ l, entity.isSubscribed = true :=
      fun x hx => h x (List.mem_cons_of_mem e hx)
    simp [Impl.notifyEach, he, ih hl, CallbackEntity.invocation]

theorem Impl.notifyEach_callback (l : UpdateCallbacks) (ev : Event)
    (h : ev ∈ Impl.notifyEach l) :
    ∃ entity ∈ l, ev = Event.callback entity.node entity.callback := by
  induction l with
  | nil => simp [Impl.notifyEach] at h
  | cons e l ih =>
    by_cases he : e.isSubscribed = true
    · simp only [Impl.notifyEach, he, if_true, List.mem_cons] at h
      rcases h with h | h
      · exact ⟨e, List.mem_cons_self e l, h⟩
      · obtain ⟨x, hx, hev⟩ := ih h
        exact ⟨x, List.mem_cons_of_mem e hx, hev⟩
    · simp only [Impl.notifyEach, he] at h
      obtain ⟨x, hx, hev⟩ := ih h
      exact ⟨x, List.mem_cons_of_mem e hx, hev⟩

theorem Impl.Update_events_callback (self : Impl) (c : ContractID) (y : Symbology)
    (d : ContractDescPtr) (ev : Event) (h : ev ∈ (self.Update c y d).1) :
    ∃ entity ∈ self.m_UpdateCallbacksMirror.getD [],
      ev = Event.callback entity.node entity.callback := by
  cases hm : self.m_UpdateCallbacksMirror with
  | none => simp [Impl.Update, Impl.notifyAll, hm] at h
  | some l =>
    simp only [Impl.Update, Impl.notifyAll, hm] at h
    simpa using Impl.notifyEach_callback l ev h

theorem Impl.Update_requestCount (self : Impl) (c : ContractID) (y : Symbology)
    (d : ContractDescPtr) (key : Key) : requestCount key (self.Update c y d).1 = 0 := by
  unfold requestCount
  rw [List.count_eq_zero]
  intro hmem
  obtain ⟨x, _, hx⟩ := Impl.Update_events_callback self c y d _ hmem
  cases hx

theorem Impl.Update_registry (self : Impl) (c : ContractID) (y : Symbology)
    (d : ContractDescPtr) :
    (self.Update c y d).2.m_UpdateCallbacks = self.m_UpdateCallbacks ∧
    (self.Update c y d).2.m_UpdateCallbacksMirror = self.m_UpdateCallbacksMirror ∧
    (self.Update c y d).2.nextNode = self.nextNode := by
  simp [Impl.Update]

theorem CancelWatchFunc.call_eq (f : CancelWatchFunc) (self : Impl) :
    f.call self = (Impl.clearFlag self.m_UpdateCallbacks f.isSubscribed).map
      (fun l => Impl.checkForDeadSubscribers { self with m_UpdateCallbacks := l }) := by
  simp only [CancelWatchFunc.call, Impl.unsubscribe]
  cases h : Impl.clearFlag self.m_UpdateCallbacks f.isSubscribed <;> simp

theorem CancelWatchFunc.call_store (f : CancelWatchFunc) (self next : Impl)
    (h : f.call self = some next) :
    next.m_Contracts = self.m_Contracts ∧ next.nextNode = self.nextNode := by
  rw [CancelWatchFunc.call_eq] at h
  cases hc : Impl.clearFlag self.m_UpdateCallbacks f.isSubscribed with
  | none => simp [hc] at h
  | some l =>
    simp only [hc, Option.map_some', Option.some.injEq] at h
    subst h
    simp [Impl.checkForDeadSubscribers]

/-! ## Sequences of operations -/

theorem run_nil (self : Impl) : run self [] = some ([], self) := rfl

theorem run_cons (self : Impl) (op : Op) (ops : List Op) (tr : List Event) (last : Impl) :
    run self (op :: ops) = some (tr, last) ↔
      ∃ evs next tr1, step self op = some (evs, next) ∧ run next ops = some (tr1, last) ∧
        tr = evs ++ tr1 := by
  constructor
  · intro h
    unfold run at h
    cases hs : step self op with
    | none => simp [hs] at h
    | some p =>
      obtain ⟨evs, next⟩ := p
      cases hr : run next ops with
      | none => simp [hs, hr] at h
      | some q =>
        obtain ⟨tr1, l⟩ := q
        simp only [hs, hr, Option.some.injEq, Prod.mk.injEq] at h
        obtain ⟨h1, h2⟩ := h
        subst h2
        exact ⟨evs, next, tr1, rfl, hr, h1.symm⟩
  · rintro ⟨evs, next, tr1, hs, hr, rfl⟩
    unfold run
    simp [hs, hr]

/-- How one operation acts on the store. -/
theorem step_find (self next : Impl) (op : Op) (evs : List Event)
    (h : step self op = some (evs, next)) (k : Key) :
    Contracts.find next.m_Contracts k = op.findAfter self.m_Contracts k := by
  cases op with
  | Get c y =>
    simp only [step, Option.some.injEq, Prod.mk.injEq] at h
    rw [← h.2]; exact Impl.Get_find self c y k
  | Update c y d =>
    simp only [step, Option.some.injEq] at h
    have h2 : (self.Update c y d).2 = next := by rw [h]
    rw [← h2]; exact Impl.Update_find self c y d k
  | WatchForUpdates cb =>
    simp only [step, Option.some.injEq, Prod.mk.injEq] at h
    rw [← h.2]; simp [Impl.WatchForUpdates, Op.findAfter]
  | cancel f =>
    simp only [step, Option.map_eq_some', Prod.mk.injEq] at h
    obtain ⟨a, ha, _, rfl⟩ := h
    simp [(CancelWatchFunc.call_store f self a ha).1, Op.findAfter]

/-- How many `RequestContractDesc` calls one operation makes for `key`. -/
theorem step_requestCount (self next : Impl) (op : Op) (evs : List Event)
    (h : step self op = some (evs, next)) (key : Key) :
    requestCount key evs =
      if op.key = some key ∧ op.isGet = true ∧ Contracts.find self.m_Contracts key = none
      then 1 else 0 := by
  cases op with
  | Get c y =>
    simp only [step, Option.some.injEq, Prod.mk.injEq] at h
    rw [← h.1, Impl.Get_events]
    by_cases hk : (c, y) = key
    · subst hk
      cases hf : Contracts.find self.m_Contracts (c, y) <;>
        simp [requestCount, Op.key, Op.isGet, hf]
    · have hk2 : Event.RequestContractDesc c y ≠ Event.RequestContractDesc key.1 key.2 := by
        intro e
        injection e with e1 e2
        exact hk (Prod.ext e1 e2)
      cases hf : Contracts.find self.m_Contracts (c, y) <;>
        simp [requestCount, Op.key, Op.isGet, hk, List.count_singleton, hk2]
  | Update c y d =>
    simp only [step, Option.some.injEq] at h
    have h2 : (self.Update c y d).1 = evs := by rw [h]
    rw [← h2, Impl.Update_requestCount]
    simp [Op.isGet]
  | WatchForUpdates cb =>
    simp only [step, Option.some.injEq, Prod.mk.injEq] at h
    rw [← h.1]; simp [requestCount, Op.key]
  | cancel f =>
    simp only [step, Option.map_eq_some', Prod.mk.injEq] at h
    obtain ⟨a, _, rfl, _⟩ := h
    simp [requestCount, Op.key]

theorem requestCount_append (key : Key) (a b : List Event) :
    requestCount key (a ++ b) = requestCount key a + requestCount key b := by
  simp [requestCount]

/-- The number of requests for `key` along a run is fixed by the store at the start and by
the first operation that addresses `key`. -/
theorem run_requestCount (ops : List Op) (self last : Impl) (tr : List Event)
    (h : run self ops = some (tr, last)) (key : Key) :
    requestCount key tr =
      if Contracts.find self.m_Contracts key = none ∧ createdByGet ops key = true
      then 1 else 0 := by
  induction ops generalizing self tr with
  | nil =>
    simp only [run_nil, Option.some.injEq, Prod.mk.injEq] at h
    simp [← h.1, requestCount, createdByGet]
  | cons op ops ih =>
    obtain ⟨evs, next, tr1, hs, hr, rfl⟩ := (run_cons self op ops tr last).1 h
    rw [requestCount_append, step_requestCount self next op evs hs key, ih next tr1 hr]
    have hf := step_find self next op evs hs key
    by_cases hk : op.key = some key
    · have hnext : Contracts.find next.m_Contracts key ≠ none := by
        cases op with
        | Get c y =>
          simp only [Op.key, Option.some.injEq] at hk
          subst hk
          simp [Op.findAfter] at hf
          simp [hf]
        | Update c y d =>
          simp only [Op.key, Option.some.injEq] at hk
          subst hk
          simp [Op.findAfter] at hf
          simp [hf]
        | WatchForUpdates cb => simp [Op.key] at hk
        | cancel f => simp [Op.key] at hk
      simp only [createdByGet, hk, if_true, hnext, false_and, if_false, true_and, add_zero]
      by_cases h1 : op.isGet = true <;> by_cases h2 : Contracts.find self.m_Contracts key = none <;>
        simp [h1, h2]
    · have hsame : Contracts.find next.m_Contracts key = Contracts.find self.m_Contracts key := by
        cases op with
        | Get c y =>
          have hk2 : ¬ key = (c, y) := fun e => hk (by simp [Op.key, e])
          simp only [Op.findAfter, hk2, if_false] at hf
          exact hf
        | Update c y d =>
          have hk2 : ¬ key = (c, y) := fun e => hk (by simp [Op.key, e])
          simp only [Op.findAfter, hk2, if_false] at hf
          exact hf
        | WatchForUpdates cb => exact hf
        | cancel f => exact hf
      simp [createdByGet, hk, hsame]

/-- C3. Along every sequence of `Get`, `Update`, `WatchForUpdates` and cancel operations
applied one after another to a freshly constructed cache, `RequestContractDesc` is called at
most once for every key.  (A sequence has a run exactly when every cancel functor it calls
belongs to a subscription registered before and not cancelled yet, see `run_isSome_iff`;
every prefix of a sequence that has a run is covered as a sequence of its own.) -/
theorem C3_at_most_one_request (ops : List Op) (tr : List Event) (last : Impl)
    (h : run Impl.ctor ops = some (tr, last)) (key : Key) :
    requestCount key tr ≤ 1 := by
  rw [run_requestCount ops Impl.ctor last tr h key]
  split <;> simp

/-- C3, at a concrete input: two lookups of one key around an update, a registration and a
cancellation make one request. -/
theorem C3_at_most_one_request_witness :
    run Impl.ctor [Op.Get 7 ISIN, Op.WatchForUpdates 0, Op.Get 7 ISIN, Op.Update 7 ISIN none,
        Op.cancel ⟨0⟩, Op.Get 7 ISIN]
      = some ([Event.RequestContractDesc 7 ISIN, Event.callback 0 0],
          ⟨[], some [], [((7, ISIN), ⟨Status.Error, none⟩)], 1⟩) ∧
    requestCount (7, ISIN) [Event.RequestContractDesc 7 ISIN, Event.callback 0 0] ≤ 1 :=
  ⟨by decide,
    C3_at_most_one_request
      [Op.Get 7 ISIN, Op.WatchForUpdates 0, Op.Get 7 ISIN, Op.Update 7 ISIN none,
        Op.cancel ⟨0⟩, Op.Get 7 ISIN]
      [Event.RequestContractDesc 7 ISIN, Event.callback 0 0]
      ⟨[], some [], [((7, ISIN), ⟨Status.Error, none⟩)], 1⟩ (by decide) (7, ISIN)⟩

/-- An entry stays as it is along a run that has no `Update` on its key. -/
theorem run_find_stable (ops : List Op) (self last : Impl) (tr : List Event)
    (h : run self ops = some (tr, last)) (c : ContractID) (y : Symbology) (r : Result)
    (hno : ∀ d, Op.Update c y d ∉ ops)
    (hf : Contracts.find self.m_Contracts (c, y) = some r) :
    Contracts.find last.m_Contracts (c, y) = some r := by
  induction ops generalizing self tr with
  | nil =>
    simp only [run_nil, Option.some.injEq, Prod.mk.injEq] at h
    rw [← h.2]; exact hf
  | cons op ops ih =>
    obtain ⟨evs, next, tr1, hs, hr, rfl⟩ := (run_cons self op ops _ last).1 h
    have hno1 : ∀ d, Op.Update c y d ∉ ops := fun d hd => hno d (List.mem_cons_of_mem op hd)
    refine ih next tr1 hr hno1 ?_
    rw [step_find self next op evs hs (c, y)]
    cases op with
    | Get c1 y1 =>
      by_cases hk : (c, y) = (c1, y1)
      · injection hk with e1 e2
        subst e1; subst e2
        simp [Op.findAfter, hf]
      · simp [Op.findAfter, hk, hf]
    | Update c1 y1 d =>
      have hk : ¬ (c, y) = (c1, y1) := by
        intro e
        injection e with e1 e2
        subst e1; subst e2
        exact hno d (List.mem_cons_self _ _)
      simp [Op.findAfter, hk, hf]
    | WatchForUpdates cb => simpa [Op.findAfter] using hf
    | cancel f => simpa [Op.findAfter] using hf

/-- C4. Read-your-write: from any state (the key absent, InProgress, Ok or Error), after
`Update(k, D)` with a non-null `D`, and after any further operations that contain no
`Update` on `k` (none at all included), `Get(k)` returns `{Ok, D}`; that `Get` is a hit, so
it requests nothing and changes nothing. -/
theorem C4_read_your_write (self : Impl) (c : ContractID) (y : Symbology) (D : Nat)
    (ops : List Op) (tr : List Event) (last : Impl)
    (hno : ∀ d, Op.Update c y d ∉ ops)
    (h : run (self.Update c y (some D)).2 ops = some (tr, last)) :
    (last.Get c y).returnedResult = ⟨Status.Ok, some D⟩ ∧
    (last.Get c y).events = [] ∧ (last.Get c y).impl = last := by
  have h0 : Contracts.find (self.Update c y (some D)).2.m_Contracts (c, y)
      = some ⟨Status.Ok, some D⟩ := by
    rw [Impl.Update_find]; simp
  have h1 := run_find_stable ops _ last tr h c y _ hno h0
  simp [Impl.Get_hit last c y _ h1]

/-- C4, at a concrete input: the key was in state Error, and lookups, an update of another
key, a registration and a cancellation follow the update. -/
theorem C4_read_your_write_witness :
    (∀ d, Op.Update 7 ISIN d ∉
      [Op.Get 7 ISIN, Op.Update 8 ISIN none, Op.WatchForUpdates 4, Op.Get 9 0, Op.cancel ⟨0⟩]) ∧
    ((⟨[], some [], [((7, ISIN), ⟨Status.Ok, some 5⟩), ((8, ISIN), ⟨Status.Error, none⟩),
        ((9, 0), ⟨Status.InProgress, none⟩)], 1⟩ : Impl).Get 7 ISIN).returnedResult
      = ⟨Status.Ok, some 5⟩ :=
  ⟨by intro d; simp,
    (C4_read_your_write ⟨[], none, [((7, ISIN), ⟨Status.Error, none⟩)], 0⟩ 7 ISIN 5
      [Op.Get 7 ISIN, Op.Update 8 ISIN none, Op.WatchForUpdates 4, Op.Get 9 0, Op.cancel ⟨0⟩]
      [Event.RequestContractDesc 9 0]
      ⟨[], some [], [((7, ISIN), ⟨Status.Ok, some 5⟩), ((8, ISIN), ⟨Status.Error, none⟩),
        ((9, 0), ⟨Status.InProgress, none⟩)], 1⟩
      (by intro d; simp) (by decide)).1⟩

/-- C5. Error encoding: from any state, whatever the entry of `k` was before (none, or
InProgress, Ok, Error), `Update(k, null)` followed by `Get(k)` yields `{Error, null}`, and
that `Get` makes no call to `RequestContractDesc` (it produces no event and changes
nothing). -/
theorem C5_error_encoding (self : Impl) (c : ContractID) (y : Symbology) :
    ((self.Update c y none).2.Get c y).returnedResult = ⟨Status.Error, none⟩ ∧
    ((self.Update c y none).2.Get c y).events = [] ∧
    ((self.Update c y none).2.Get c y).impl = (self.Update c y none).2 := by
  have h0 : Contracts.find (self.Update c y none).2.m_Contracts (c, y)
      = some ⟨Status.Error, none⟩ := by
    rw [Impl.Update_find]; simp
  simp [Impl.Get_hit _ c y _ h0]

/-! ## The status and the descriptor of an entry -/

theorem Contracts.mem_insert (m : Contracts) (key : Key) (r : Result) (p : Key × Result)
    (h : p ∈ (Contracts.insert m key r).1) : p ∈ m ∨ p = (key, r) := by
  induction m with
  | nil => simpa [Contracts.insert] using h
  | cons q m ih =>
    obtain ⟨k0, r0⟩ := q
    by_cases h0 : k0 = key
    · simp only [Contracts.insert, h0, if_true] at h
      left; simpa [h0] using h
    · simp only [Contracts.insert, h0, if_false, List.mem_cons] at h
      rcases h with h | h
      · left; simp [h]
      · rcases ih h with h1 | h1
        · left; exact List.mem_cons_of_mem _ h1
        · right; exact h1

theorem Contracts.mem_assign (m : Contracts) (key : Key) (r : Result) (p : Key × Result)
    (h : p ∈ Contracts.assign m key r) : p ∈ m ∨ p = (key, r) := by
  induction m with
  | nil => simpa [Contracts.assign] using h
  | cons q m ih =>
    obtain ⟨k0, r0⟩ := q
    by_cases h0 : k0 = key
    · simp only [Contracts.assign, h0, if_true, List.mem_cons] at h
      rcases h with h | h
      · right; exact h
      · left; exact List.mem_cons_of_mem _ h
    · simp only [Contracts.assign, h0, if_false, List.mem_cons] at h
      rcases h with h | h
      · left; simp [h]
      · rcases ih h with h1 | h1
        · left; exact List.mem_cons_of_mem _ h1
        · right; exact h1

theorem Contracts.find_mem (m : Contracts) (key : Key) (r : Result)
    (h : Contracts.find m key = some r) : (key, r) ∈ m := by
  induction m with
  | nil => simp [Contracts.find] at h
  | cons q m ih =>
    obtain ⟨k0, r0⟩ := q
    by_cases h0 : k0 = key
    · simp only [Contracts.find, h0, if_true, Option.some.injEq] at h
      simp [h0, h]
    · simp only [Contracts.find, h0, if_false] at h
      exact List.mem_cons_of_mem _ (ih h)

/-- One operation stores only entries whose status is Ok exactly when the descriptor is
not null. -/
theorem step_status_desc (self next : Impl) (op : Op) (evs : List Event)
    (h : step self op = some (evs, next))
    (hinv : ∀ p ∈ self.m_Contracts, (p.2.status = Status.Ok ↔ p.2.desc ≠ none)) :
    ∀ p ∈ next.m_Contracts, (p.2.status = Status.Ok ↔ p.2.desc ≠ none) := by
  intro p hp
  cases op with
  | Get c y =>
    simp only [step, Option.some.injEq, Prod.mk.injEq] at h
    rw [← h.2] at hp
    cases hf : Contracts.find self.m_Contracts (c, y) with
    | none =>
      rw [Impl.Get_miss self c y hf] at hp
      simp only [List.mem_append, List.mem_singleton] at hp
      rcases hp with hp | hp
      · exact hinv p hp
      · subst hp; simp [Result.ofStatus]
    | some r =>
      rw [Impl.Get_hit self c y r hf] at hp
      exact hinv p hp
  | Update c y d =>
    simp only [step, Option.some.injEq] at h
    have h2 : (self.Update c y d).2 = next := by rw [h]
    rw [← h2] at hp
    simp only [Impl.Update] at hp
    rcases Contracts.mem_assign _ _ _ p hp with hp | hp
    · exact hinv p hp
    · subst hp
      cases d <;> simp
  | WatchForUpdates cb =>
    simp only [step, Option.some.injEq, Prod.mk.injEq] at h
    rw [← h.2] at hp
    exact hinv p (by simpa [Impl.WatchForUpdates] using hp)
  | cancel f =>
    simp only [step, Option.map_eq_some', Prod.mk.injEq] at h
    obtain ⟨a, ha, _, rfl⟩ := h
    rw [(CancelWatchFunc.call_store f self a ha).1] at hp
    exact hinv p hp

theorem run_status_desc (ops : List Op) (self last : Impl) (tr : List Event)
    (h : run self ops = some (tr, last))
    (hinv : ∀ p ∈ self.m_Contracts, (p.2.status = Status.Ok ↔ p.2.desc ≠ none)) :
    ∀ p ∈ last.m_Contracts, (p.2.status = Status.Ok ↔ p.2.desc ≠ none) := by
  induction ops generalizing self tr with
  | nil =>
    simp only [run_nil, Option.some.injEq, Prod.mk.injEq] at h
    rw [← h.2]; exact hinv
  | cons op ops ih =>
    obtain ⟨evs, next, tr1, hs, hr, rfl⟩ := (run_cons self op ops _ last).1 h
    exact ih next tr1 hr (step_status_desc self next op evs hs hinv)

/-- C9. In every state reached from a fresh cache by `Get`, `Update`, `WatchForUpdates` and
cancel operations, every stored entry and every `Result` that `Get` returns there has
status Ok if and only if its descriptor is not null; with status Error or InProgress the
descriptor is null.  (Every `Get` of a run is a `Get` at a reached state.) -/
theorem C9_status_descriptor (ops : List Op) (tr : List Event) (last : Impl)
    (h : run Impl.ctor ops = some (tr, last)) :
    (∀ p ∈ last.m_Contracts,
      (p.2.status = Status.Ok ↔ p.2.desc ≠ none) ∧
      (p.2.status = Status.Error ∨ p.2.status = Status.InProgress → p.2.desc = none)) ∧
    (∀ (c : ContractID) (y : Symbology),
      ((last.Get c y).returnedResult.status = Status.Ok ↔
        (last.Get c y).returnedResult.desc ≠ none) ∧
      ((last.Get c y).returnedResult.status = Status.Error ∨
        (last.Get c y).returnedResult.status = Status.InProgress →
          (last.Get c y).returnedResult.desc = none)) := by
  have hinv := run_status_desc ops Impl.ctor last tr h (by simp [Impl.ctor])
  have weaken : ∀ r : Result, (r.status = Status.Ok ↔ r.desc ≠ none) →
      (r.status = Status.Error ∨ r.status = Status.InProgress → r.desc = none) := by
    intro r hr hs
    by_contra hd
    have hok := hr.2 hd
    rcases hs with hs | hs <;> rw [hok] at hs <;> cases hs
  constructor
  · intro p hp
    exact ⟨hinv p hp, weaken p.2 (hinv p hp)⟩
  · intro c y
    have key : ((last.Get c y).returnedResult.status = Status.Ok ↔
        (last.Get c y).returnedResult.desc ≠ none) := by
      cases hf : Contracts.find last.m_Contracts (c, y) with
      | none => simp [Impl.Get_miss last c y hf, Result.ofStatus]
      | some r =>
        rw [Impl.Get_hit last c y r hf]
        exact hinv ((c, y), r) (Contracts.find_mem _ _ _ hf)
    exact ⟨key, weaken _ key⟩

/-- C9, at a concrete input: a store with an Ok, an Error and an InProgress entry. -/
theorem C9_status_descriptor_witness :
    run Impl.ctor [Op.Get 7 ISIN, Op.Update 7 ISIN (some 5), Op.Update 8 ISIN none, Op.Get 9 0]
      = some ([Event.RequestContractDesc 7 ISIN, Event.RequestContractDesc 9 0],
          ⟨[], none, [((7, ISIN), ⟨Status.Ok, some 5⟩), ((8, ISIN), ⟨Status.Error, none⟩),
            ((9, 0), ⟨Status.InProgress, none⟩)], 0⟩) ∧
    ∀ p ∈ [(((7, ISIN), ⟨Status.Ok, some 5⟩) : Key × Result), ((8, ISIN), ⟨Status.Error, none⟩),
        ((9, 0), ⟨Status.InProgress, none⟩)],
      (p.2.status = Status.Ok ↔ p.2.desc ≠ none) ∧
      (p.2.status = Status.Error ∨ p.2.status = Status.InProgress → p.2.desc = none) :=
  ⟨by decide,
    (C9_status_descriptor
      [Op.Get 7 ISIN, Op.Update 7 ISIN (some 5), Op.Update 8 ISIN none, Op.Get 9 0]
      [Event.RequestContractDesc 7 ISIN, Event.RequestContractDesc 9 0]
      ⟨[], none, [((7, ISIN), ⟨Status.Ok, some 5⟩), ((8, ISIN), ⟨Status.Error, none⟩),
        ((9, 0), ⟨Status.InProgress, none⟩)], 0⟩ (by decide)).1⟩

/-! ## The lifecycle of an entry -/

theorem addressed_cons (op : Op) (ops : List Op) (key : Key) :
    addressed (op :: ops) key = (decide (op.key = some key) || addressed ops key) := by
  simp [addressed]

theorem Op.key_eq_some (op : Op) (key : Key) (h : op.key = some key) :
    op = Op.Get key.1 key.2 ∨ ∃ d, op = Op.Update key.1 key.2 d := by
  cases op with
  | Get c y =>
    simp only [Op.key, Option.some.injEq] at h
    subst h; left; rfl
  | Update c y d =>
    simp only [Op.key, Option.some.injEq] at h
    subst h; right; exact ⟨d, rfl⟩
  | WatchForUpdates cb => simp [Op.key] at h
  | cancel f => simp [Op.key] at h

/-- An operation that does not address `key` leaves the entry of `key` as it is. -/
theorem step_find_other (self next : Impl) (op : Op) (evs : List Event)
    (h : step self op = some (evs, next)) (key : Key) (hk : op.key ≠ some key) :
    Contracts.find next.m_Contracts key = Contracts.find self.m_Contracts key := by
  rw [step_find self next op evs h key]
  cases op with
  | Get c y =>
    have hk2 : ¬ key = (c, y) := fun e => hk (by simp [Op.key, e])
    simp [Op.findAfter, hk2]
  | Update c y d =>
    have hk2 : ¬ key = (c, y) := fun e => hk (by simp [Op.key, e])
    simp [Op.findAfter, hk2]
  | WatchForUpdates cb => rfl
  | cancel f => rfl

/-- A key has an entry after a run exactly when it had one before or the run addressed it. -/
theorem run_find_isSome (ops : List Op) (self last : Impl) (tr : List Event)
    (h : run self ops = some (tr, last)) (key : Key) :
    (Contracts.find last.m_Contracts key).isSome = true ↔
      ((Contracts.find self.m_Contracts key).isSome = true ∨ addressed ops key = true) := by
  induction ops generalizing self tr with
  | nil =>
    simp only [run_nil, Option.some.injEq, Prod.mk.injEq] at h
    simp [← h.2, addressed]
  | cons op ops ih =>
    obtain ⟨evs, next, tr1, hs, hr, rfl⟩ := (run_cons self op ops _ last).1 h
    rw [ih next tr1 hr, addressed_cons]
    by_cases hk : op.key = some key
    · have hnext : (Contracts.find next.m_Contracts key).isSome = true := by
        rw [step_find self next op evs hs key]
        rcases Op.key_eq_some op key hk with e | ⟨d, e⟩ <;> subst e <;> simp [Op.findAfter]
      simp [hk, hnext]
    · rw [step_find_other self next op evs hs key hk]
      simp [hk]

/-- A key without an entry that a run addresses by `Get` only ends up InProgress. -/
theorem run_find_inProgress (ops : List Op) (self last : Impl) (tr : List Event)
    (h : run self ops = some (tr, last)) (key : Key)
    (hno : ∀ d, Op.Update key.1 key.2 d ∉ ops)
    (hf : Contracts.find self.m_Contracts key = none) (ha : addressed ops key = true) :
    Contracts.find last.m_Contracts key = some ⟨Status.InProgress, none⟩ := by
  induction ops generalizing self tr with
  | nil => simp [addressed] at ha
  | cons op ops ih =>
    obtain ⟨evs, next, tr1, hs, hr, rfl⟩ := (run_cons self op ops _ last).1 h
    have hno1 : ∀ d, Op.Update key.1 key.2 d ∉ ops :=
      fun d hd => hno d (List.mem_cons_of_mem op hd)
    by_cases hk : op.key = some key
    · rcases Op.key_eq_some op key hk with e | ⟨d, e⟩
      · subst e
        have hn : Contracts.find next.m_Contracts (key.1, key.2)
            = some ⟨Status.InProgress, none⟩ := by
          rw [step_find self _ _ evs hs (key.1, key.2)]
          simp [Op.findAfter, hf]
        exact run_find_stable ops next last tr1 hr key.1 key.2 _ hno1 hn
      · subst e
        exact absurd (List.mem_cons_self _ _) (hno d)
    · rw [addressed_cons] at ha
      simp only [hk, decide_False, Bool.false_or] at ha
      refine ih next tr1 hr hno1 ?_ ha
      rw [step_find_other self next op evs hs key hk]; exact hf

/-- After a run with an `Update` on `key` the entry of `key` is not InProgress. -/
theorem run_find_updated (ops : List Op) (self last : Impl) (tr : List Event)
    (h : run self ops = some (tr, last)) (key : Key)
    (hu : ∃ d, Op.Update key.1 key.2 d ∈ ops) :
    ∃ r, Contracts.find last.m_Contracts key = some r ∧ r.status ≠ Status.InProgress := by
  induction ops generalizing self tr with
  | nil => simp at hu
  | cons op ops ih =>
    obtain ⟨evs, next, tr1, hs, hr, rfl⟩ := (run_cons self op ops _ last).1 h
    by_cases hlater : ∃ d, Op.Update key.1 key.2 d ∈ ops
    · exact ih next tr1 hr hlater
    · obtain ⟨d, hd⟩ := hu
      have hop : op = Op.Update key.1 key.2 d := by
        rcases List.mem_cons.1 hd with e | e
        · exact e.symm
        · exact absurd ⟨d, e⟩ hlater
      subst hop
      have hn : Contracts.find next.m_Contracts (key.1, key.2)
          = some ⟨if d.isSome then Status.Ok else Status.Error, d⟩ := by
        rw [step_find self _ _ evs hs (key.1, key.2)]
        simp [Op.findAfter]
      have hno1 : ∀ d1, Op.Update key.1 key.2 d1 ∉ ops := fun d1 hd1 => hlater ⟨d1, hd1⟩
      refine ⟨_, run_find_stable ops next last tr1 hr key.1 key.2 _ hno1 hn, ?_⟩
      cases d <;> simp

theorem createdByGet_of_no_update (ops : List Op) (key : Key)
    (hno : ∀ d, Op.Update key.1 key.2 d ∉ ops) (ha : addressed ops key = true) :
    createdByGet ops key = true := by
  induction ops with
  | nil => simp [addressed] at ha
  | cons op ops ih =>
    by_cases hk : op.key = some key
    · rcases Op.key_eq_some op key hk with e | ⟨d, e⟩
      · subst e; simp [createdByGet, Op.key, Op.isGet]
      · subst e; exact absurd (List.mem_cons_self _ _) (hno d)
    · rw [addressed_cons] at ha
      simp only [hk, decide_False, Bool.false_or] at ha
      simp only [createdByGet, hk, if_false]
      exact ih (fun d hd => hno d (List.mem_cons_of_mem op hd)) ha

/-- How a key without an entry can get one in a single operation. -/
theorem step_creates (self next : Impl) (op : Op) (evs : List Event)
    (h : step self op = some (evs, next)) (key : Key)
    (hf : Contracts.find self.m_Contracts key = none)
    (hn : (Contracts.find next.m_Contracts key).isSome = true) :
    (op = Op.Get key.1 key.2 ∧
      Contracts.find next.m_Contracts key = some ⟨Status.InProgress, none⟩ ∧
      evs = [Event.RequestContractDesc key.1 key.2]) ∨
    (∃ d, op = Op.Update key.1 key.2 d ∧
      Contracts.find next.m_Contracts key
        = some ⟨if d.isSome then Status.Ok else Status.Error, d⟩ ∧
      requestCount key evs = 0) := by
  by_cases hk : op.key = some key
  · rcases Op.key_eq_some op key hk with e | ⟨d, e⟩
    · subst e
      left
      refine ⟨rfl, ?_, ?_⟩
      · rw [step_find self _ _ evs h key]
        simp [Op.findAfter, hf]
      · simp only [step, Option.some.injEq, Prod.mk.injEq] at h
        rw [← h.1, Impl.Get_events]
        simp [hf]
    · subst e
      right
      refine ⟨d, rfl, ?_, ?_⟩
      · rw [step_find self _ _ evs h key]
        simp [Op.findAfter]
      · rw [step_requestCount self next _ evs h key]
        simp [Op.isGet]
  · rw [step_find_other self next op evs h key hk, hf] at hn
    simp at hn

/-- C10, as stated, fails: an `Update` on a key that was never looked up creates the entry,
directly in state Ok, and `RequestContractDesc` is never called for that key. -/
theorem C10_entry_lifecycle_counterexample :
    run Impl.ctor [Op.Update 7 ISIN (some 5)]
      = some ([], ⟨[], none, [((7, ISIN), ⟨Status.Ok, some 5⟩)], 0⟩) ∧
    Contracts.find Impl.ctor.m_Contracts (7, ISIN) = none ∧
    Contracts.find [((7, ISIN), ⟨Status.Ok, some 5⟩)] (7, ISIN) = some ⟨Status.Ok, some 5⟩ ∧
    requestCount (7, ISIN) [] = 0 ∧
    ¬ (∀ (ops : List Op) (tr : List Event) (last : Impl),
        run Impl.ctor ops = some (tr, last) →
        ∀ key : Key, (Contracts.find last.m_Contracts key).isSome = true →
          requestCount key tr = 1) := by
  refine ⟨by decide, by decide, by decide, by decide, ?_⟩
  intro hall
  have h1 := hall [Op.Update 7 ISIN (some 5)] []
    ⟨[], none, [((7, ISIN), ⟨Status.Ok, some 5⟩)], 0⟩ (by decide) (7, ISIN) (by decide)
  revert h1
  decide

/-- C10, amended. In every state reached from a fresh cache: a key has an entry exactly when
a `Get` or an `Update` has addressed it; `RequestContractDesc` has been called for the key
exactly once when the first operation that addressed it was a `Get` (a miss, which creates
the entry as `{InProgress, null}`) and never otherwise; an entry addressed by no `Update` is
`{InProgress, null}`, and an entry addressed by an `Update` is not InProgress; and in any
state a single operation gives an entry to a key that had none only if it is a `Get` of that
key (entry `{InProgress, null}`, one request) or an `Update` of that key (entry Ok or Error,
no request). -/
theorem C10_entry_lifecycle (ops : List Op) (tr : List Event) (last : Impl)
    (h : run Impl.ctor ops = some (tr, last)) (key : Key) :
    ((Contracts.find last.m_Contracts key).isSome = true ↔ addressed ops key = true) ∧
    requestCount key tr = (if createdByGet ops key = true then 1 else 0) ∧
    ((∀ d, Op.Update key.1 key.2 d ∉ ops) → addressed ops key = true →
      createdByGet ops key = true ∧
      Contracts.find last.m_Contracts key = some ⟨Status.InProgress, none⟩) ∧
    ((∃ d, Op.Update key.1 key.2 d ∈ ops) →
      ∃ r, Contracts.find last.m_Contracts key = some r ∧ r.status ≠ Status.InProgress) ∧
    (∀ (self next : Impl) (op : Op) (evs : List Event),
      step self op = some (evs, next) →
      Contracts.find self.m_Contracts key = none →
      (Contracts.find next.m_Contracts key).isSome = true →
      (op = Op.Get key.1 key.2 ∧
        Contracts.find next.m_Contracts key = some ⟨Status.InProgress, none⟩ ∧
        evs = [Event.RequestContractDesc key.1 key.2]) ∨
      (∃ d, op = Op.Update key.1 key.2 d ∧
        Contracts.find next.m_Contracts key
          = some ⟨if d.isSome then Status.Ok else Status.Error, d⟩ ∧
        requestCount key evs = 0)) := by
  refine ⟨?_, ?_, ?_, ?_, ?_⟩
  · rw [run_find_isSome ops Impl.ctor last tr h key]
    simp [Impl.ctor, Contracts.find]
  · rw [run_requestCount ops Impl.ctor last tr h key]
    simp [Impl.ctor, Contracts.find]
  · intro hno ha
    exact ⟨createdByGet_of_no_update ops key hno ha,
      run_find_inProgress ops Impl.ctor last tr h key hno (by simp [Impl.ctor, Contracts.find]) ha⟩
  · exact run_find_updated ops Impl.ctor last tr h key
  · intro self next op evs hs hf hn
    exact step_creates self next op evs hs key hf hn

/-- C10 amended, at a concrete input: one key created by a `Get` and then updated, one key
created by an `Update`. -/
theorem C10_entry_lifecycle_witness :
    run Impl.ctor [Op.Get 7 ISIN, Op.Update 7 ISIN (some 5), Op.Update 8 ISIN none]
      = some ([Event.RequestContractDesc 7 ISIN],
          ⟨[], none, [((7, ISIN), ⟨Status.Ok, some 5⟩), ((8, ISIN), ⟨Status.Error, none⟩)], 0⟩) ∧
    requestCount (8, ISIN) [Event.RequestContractDesc 7 ISIN]
      = (if createdByGet [Op.Get 7 ISIN, Op.Update 7 ISIN (some 5), Op.Update 8 ISIN none]
          (8, ISIN) = true then 1 else 0) :=
  ⟨by decide,
    (C10_entry_lifecycle
      [Op.Get 7 ISIN, Op.Update 7 ISIN (some 5), Op.Update 8 ISIN none]
      [Event.RequestContractDesc 7 ISIN]
      ⟨[], none, [((7, ISIN), ⟨Status.Ok, some 5⟩), ((8, ISIN), ⟨Status.Error, none⟩)], 0⟩
      (by decide) (8, ISIN)).2.1⟩

/-! ## The registry -/

theorem Impl.clearFlag_dangling (l : UpdateCallbacks) (ref : Nat)
    (h : ref ∉ l.map CallbackEntity.node) : Impl.clearFlag l ref = none := by
  induction l with
  | nil => rfl
  | cons e l ih =>
    simp only [List.map_cons, List.mem_cons, not_or] at h
    have h1 : ¬ e.node = ref := fun x => h.1 x.symm
    simp [Impl.clearFlag, h1, ih h.2]

theorem Impl.clearFlag_live (l : UpdateCallbacks) (ref : Nat)
    (halive : ∀ entity ∈ l, entity.isSubscribed = true)
    (hnd : (l.map CallbackEntity.node).Nodup)
    (hin : ref ∈ l.map CallbackEntity.node) :
    ∃ l1, Impl.clearFlag l ref = some l1 ∧
      l1.filter (fun entity => entity.isSubscribed)
        = l.filter (fun entity => decide (entity.node ≠ ref)) := by
  induction l with
  | nil => simp at hin
  | cons e l ih =>
    have hl : ∀ entity ∈ l, entity.isSubscribed = true :=
      fun x hx => halive x (List.mem_cons_of_mem e hx)
    have he : e.isSubscribed = true := halive e (List.mem_cons_self e l)
    simp only [List.map_cons, List.nodup_cons] at hnd
    by_cases h1 : e.node = ref
    · refine ⟨{ e with isSubscribed := false } :: l, by simp [Impl.clearFlag, h1], ?_⟩
      have hrest : ∀ x ∈ l, x.node ≠ ref := by
        intro x hx hxe
        exact hnd.1 (by rw [h1, ← hxe]; exact List.mem_map_of_mem _ hx)
      have e1 : l.filter (fun entity => entity.isSubscribed) = l :=
        List.filter_eq_self.2 (fun x hx => hl x hx)
      have e2 : l.filter (fun entity => decide (entity.node ≠ ref)) = l :=
        List.filter_eq_self.2 (fun x hx => by simpa using hrest x hx)
      simp [List.filter_cons, h1, e1]
      simpa using e2.symm
    · have hin1 : ref ∈ l.map CallbackEntity.node := by
        simp only [List.map_cons, List.mem_cons] at hin
        rcases hin with hin | hin
        · exact absurd hin.symm h1
        · exact hin
      obtain ⟨l1, hc, hf⟩ := ih hl hnd.2 hin1
      refine ⟨e :: l1, by simp [Impl.clearFlag, h1, hc], ?_⟩
      simp [List.filter_cons, he, h1, hf]

/-- Calling a cancel functor whose node is in the list drops exactly that node and stores a
copy of the remaining list into the mirror. -/
theorem CancelWatchFunc.call_live (f : CancelWatchFunc) (self : Impl)
    (acc : Nat × List (Nat × OnUpdateCallback)) (ht : self.Tracks acc)
    (hin : f.isSubscribed ∈ self.m_UpdateCallbacks.map CallbackEntity.node) :
    f.call self = some
      { self with
        m_UpdateCallbacks :=
          self.m_UpdateCallbacks.filter (fun entity => decide (entity.node ≠ f.isSubscribed))
        m_UpdateCallbacksMirror := some
          (self.m_UpdateCallbacks.filter (fun entity => decide (entity.node ≠ f.isSubscribed))) } := by
  obtain ⟨l1, hc, hf⟩ := Impl.clearFlag_live self.m_UpdateCallbacks f.isSubscribed
    (fun x hx => (ht.1 x hx).1) ht.2.1 hin
  rw [CancelWatchFunc.call_eq, hc]
  simp [Impl.checkForDeadSubscribers, hf]

/-- Calling a cancel functor whose node is not in the list has no defined result. -/
theorem CancelWatchFunc.call_dangling (f : CancelWatchFunc) (self : Impl)
    (hin : f.isSubscribed ∉ self.m_UpdateCallbacks.map CallbackEntity.node) :
    f.call self = none := by
  rw [CancelWatchFunc.call_eq, Impl.clearFlag_dangling _ _ hin]
  rfl

theorem Impl.Tracks_ctor : Impl.ctor.Tracks (0, []) := by
  simp [Impl.Tracks, Impl.ctor]

/-- One operation keeps the code and the registry of the specification in agreement. -/
theorem step_Tracks (self next : Impl) (op : Op) (evs : List Event)
    (acc : Nat × List (Nat × OnUpdateCallback))
    (h : step self op = some (evs, next)) (ht : self.Tracks acc) :
    next.Tracks (registryStep acc op) := by
  cases op with
  | Get c y =>
    simp only [step, Option.some.injEq, Prod.mk.injEq] at h
    obtain ⟨h1, h2, h3⟩ := Impl.Get_registry self c y
    rw [h.2] at h1 h2 h3
    simpa [Impl.Tracks, registryStep, h1, h2, h3] using ht
  | Update c y d =>
    simp only [step, Option.some.injEq] at h
    obtain ⟨h1, h2, h3⟩ := Impl.Update_registry self c y d
    rw [h] at h1 h2 h3
    simp only at h1 h2 h3
    simpa [Impl.Tracks, registryStep, h1, h2, h3] using ht
  | WatchForUpdates cb =>
    simp only [step, Option.some.injEq, Prod.mk.injEq] at h
    rw [← h.2]
    obtain ⟨ha, hnd, hm, hn, hs⟩ := ht
    refine ⟨?_, ?_, ?_, ?_, ?_⟩
    · intro x hx
      simp only [Impl.WatchForUpdates, List.mem_append, List.mem_singleton] at hx
      rcases hx with hx | hx
      · exact ⟨(ha x hx).1, Nat.lt_succ_of_lt (ha x hx).2⟩
      · subst hx; simp [Impl.WatchForUpdates]
    · simp only [Impl.WatchForUpdates, List.map_append, List.map_cons, List.map_nil]
      rw [List.nodup_append]
      refine ⟨hnd, by simp, ?_⟩
      intro a ha1 ha2
      simp only [List.mem_singleton] at ha2
      obtain ⟨x, hx, hxa⟩ := List.mem_map.1 ha1
      have := (ha x hx).2
      omega
    · simp [Impl.WatchForUpdates]
    · simp [Impl.WatchForUpdates, registryStep, hn]
    · simp [Impl.WatchForUpdates, registryStep, hs, hn, CallbackEntity.subscription]
  | cancel f =>
    simp only [step, Option.map_eq_some', Prod.mk.injEq] at h
    obtain ⟨a, hcall, _, rfl⟩ := h
    by_cases hin : f.isSubscribed ∈ self.m_UpdateCallbacks.map CallbackEntity.node
    · rw [CancelWatchFunc.call_live f self acc ht hin] at hcall
      simp only [Option.some.injEq] at hcall
      subst hcall
      obtain ⟨ha, hnd, hm, hn, hs⟩ := ht
      refine ⟨?_, ?_, ?_, ?_, ?_⟩
      · intro x hx
        exact ha x (List.mem_of_mem_filter hx)
      · exact hnd.sublist (List.Sublist.map _ (List.filter_sublist _))
      · simp
      · simpa [registryStep] using hn
      · simp only [registryStep]
        rw [← hs, List.filter_map]
        rfl
    · rw [CancelWatchFunc.call_dangling f self hin] at hcall
      cases hcall

theorem run_Tracks (ops : List Op) (self last : Impl) (tr : List Event)
    (acc : Nat × List (Nat × OnUpdateCallback))
    (h : run self ops = some (tr, last)) (ht : self.Tracks acc) :
    last.Tracks (ops.foldl registryStep acc) := by
  induction ops generalizing self tr acc with
  | nil =>
    simp only [run_nil, Option.some.injEq, Prod.mk.injEq] at h
    rw [← h.2]; exact ht
  | cons op ops ih =>
    obtain ⟨evs, next, tr1, hs, hr, rfl⟩ := (run_cons self op ops _ last).1 h
    exact ih next tr1 (registryStep acc op) hr (step_Tracks self next op evs acc hs ht)

/-- The invocations of an `Update` are those of `notifyAll` on the mirror. -/
theorem Impl.Update_events (self : Impl) (c : ContractID) (y : Symbology)
    (d : ContractDescPtr) :
    (self.Update c y d).1 = Impl.notifyEach (self.m_UpdateCallbacksMirror.getD []) := by
  cases hm : self.m_UpdateCallbacksMirror <;> simp [Impl.Update, Impl.notifyAll, hm, Impl.notifyEach]

theorem Impl.Update_events_Tracks (self : Impl) (acc : Nat × List (Nat × OnUpdateCallback))
    (ht : self.Tracks acc) (c : ContractID) (y : Symbology) (d : ContractDescPtr) :
    (self.Update c y d).1 = self.m_UpdateCallbacks.map CallbackEntity.invocation := by
  rw [Impl.Update_events, ht.2.2.1]
  exact Impl.notifyEach_eq_map _ (fun x hx => (ht.1 x hx).1)

theorem Impl.Tracks_nodes (self : Impl) (acc : Nat × List (Nat × OnUpdateCallback))
    (ht : self.Tracks acc) :
    self.m_UpdateCallbacks.map CallbackEntity.node = acc.2.map Prod.fst := by
  rw [← ht.2.2.2.2, List.map_map]
  rfl

/-- A sequence of operations has a run exactly when every cancel functor it calls belongs
to a subscription registered before the call and not cancelled yet. -/
theorem run_isSome_iff (ops : List Op) (self : Impl)
    (acc : Nat × List (Nat × OnUpdateCallback)) (ht : self.Tracks acc) :
    (run self ops).isSome = true ↔ handlesLive acc ops = true := by
  induction ops generalizing self acc with
  | nil => simp [run, handlesLive]
  | cons op ops ih =>
    cases hs : step self op with
    | none =>
      cases op with
      | Get c y => simp [step] at hs
      | Update c y d => simp [step] at hs
      | WatchForUpdates cb => simp [step] at hs
      | cancel f =>
        have hin : f.isSubscribed ∉ acc.2.map Prod.fst := by
          intro hmem
          rw [← Impl.Tracks_nodes self acc ht] at hmem
          simp [step, CancelWatchFunc.call_live f self acc ht hmem] at hs
        simp [run, hs, handlesLive, hin]
    | some p =>
      obtain ⟨evs, next⟩ := p
      have ht1 := step_Tracks self next op evs acc hs ht
      have hrun : (run self (op :: ops)).isSome = (run next ops).isSome := by
        simp only [run, hs]
        cases run next ops <;> rfl
      rw [hrun, ih next (registryStep acc op) ht1]
      cases op with
      | Get c y => simp [handlesLive]
      | Update c y d => simp [handlesLive]
      | WatchForUpdates cb => simp [handlesLive]
      | cancel f =>
        have hin : f.isSubscribed ∈ acc.2.map Prod.fst := by
          rw [← Impl.Tracks_nodes self acc ht]
          by_contra hno
          simp [step, CancelWatchFunc.call_dangling f self hno] at hs
        simp [handlesLive, hin]

/-! ## Notification -/

theorem count_flatten_replicate (a : Event) (l : List Event) (m : Nat) :
    (List.replicate m l).flatten.count a = m * l.count a := by
  induction m with
  | zero => simp
  | succ m ih =>
    rw [List.replicate_succ, List.flatten_cons, List.count_append, ih]
    ring

/-- Updates applied one after another each run one notification pass over the mirror, and
leave the registry as it is. -/
theorem run_updates (self : Impl) (c : ContractID) (y : Symbology)
    (ds : List ContractDescPtr) :
    ∃ last, run self (ds.map (Op.Update c y)) = some
        ((List.replicate ds.length
          (Impl.notifyEach (self.m_UpdateCallbacksMirror.getD []))).flatten, last) ∧
      last.m_UpdateCallbacks = self.m_UpdateCallbacks ∧
      last.m_UpdateCallbacksMirror = self.m_UpdateCallbacksMirror := by
  induction ds generalizing self with
  | nil => exact ⟨self, rfl, rfl, rfl⟩
  | cons d ds ih =>
    obtain ⟨last, hr, h1, h2⟩ := ih (self.Update c y d).2
    obtain ⟨e1, e2, _⟩ := Impl.Update_registry self c y d
    refine ⟨last, ?_, by rw [h1, e1], by rw [h2, e2]⟩
    rw [List.map_cons, run_cons]
    refine ⟨(self.Update c y d).1, (self.Update c y d).2, _, rfl, hr, ?_⟩
    rw [e2, Impl.Update_events, List.length_cons, List.replicate_succ, List.flatten_cons]

theorem map_invocation (l : UpdateCallbacks) :
    l.map CallbackEntity.invocation
      = (l.map CallbackEntity.subscription).map (fun p => Event.callback p.1 p.2) := by
  simp [List.map_map, Function.comp_def, CallbackEntity.invocation,
    CallbackEntity.subscription]

/-- In a list without a repeated node every record is invoked exactly once by a pass. -/
theorem count_invocation (l : UpdateCallbacks)
    (hnd : (l.map CallbackEntity.node).Nodup) (entity : CallbackEntity) (h : entity ∈ l) :
    (l.map CallbackEntity.invocation).count entity.invocation = 1 := by
  apply List.count_eq_one_of_mem
  · refine List.Nodup.map_on ?_ (List.Nodup.of_map _ hnd)
    intro a ha b hb hab
    have hnode : a.node = b.node := by
      simp only [CallbackEntity.invocation, Event.callback.injEq] at hab
      exact hab.1
    exact List.inj_on_of_nodup_map hnd ha hb hnode
  · exact List.mem_map_of_mem _ h

/-- C6. In a state reached from a fresh cache, whose registered and not yet cancelled
subscriptions are `s1..sn` in registration order (the list of the code holds exactly these,
all subscribed), a single `Update`, for any key and any descriptor, null or not, invokes the
callbacks of `s1..sn` in that order, each exactly once, and nothing else; `m` calls of
`Update` on one key invoke each of them `m` times. -/
theorem C6_notification_on_every_update (ops : List Op) (tr : List Event) (self : Impl)
    (h : run Impl.ctor ops = some (tr, self)) (c : ContractID) (y : Symbology) :
    self.m_UpdateCallbacks.map CallbackEntity.subscription = liveSubscriptions ops ∧
    (∀ entity ∈ self.m_UpdateCallbacks, entity.isSubscribed = true) ∧
    (∀ d, (self.Update c y d).1
      = (liveSubscriptions ops).map (fun p => Event.callback p.1 p.2)) ∧
    (∀ d, ∀ p ∈ liveSubscriptions ops,
      ((self.Update c y d).1).count (Event.callback p.1 p.2) = 1) ∧
    (∀ ds : List ContractDescPtr, ∃ tr1 last,
      run self (ds.map (Op.Update c y)) = some (tr1, last) ∧
      tr1 = (List.replicate ds.length
        ((liveSubscriptions ops).map (fun p => Event.callback p.1 p.2))).flatten ∧
      ∀ p ∈ liveSubscriptions ops, tr1.count (Event.callback p.1 p.2) = ds.length) := by
  have ht := run_Tracks ops Impl.ctor self tr (0, []) h Impl.Tracks_ctor
  have hsub : self.m_UpdateCallbacks.map CallbackEntity.subscription = liveSubscriptions ops :=
    ht.2.2.2.2
  have hev : ∀ d, (self.Update c y d).1
      = (liveSubscriptions ops).map (fun p => Event.callback p.1 p.2) := by
    intro d
    rw [Impl.Update_events_Tracks self _ ht, map_invocation, hsub]
  have hone : ∀ p ∈ liveSubscriptions ops,
      ((liveSubscriptions ops).map (fun p => Event.callback p.1 p.2)).count
        (Event.callback p.1 p.2) = 1 := by
    intro p hp
    rw [← hsub] at hp
    obtain ⟨entity, he, rfl⟩ := List.mem_map.1 hp
    rw [← hsub, ← map_invocation]
    exact count_invocation _ ht.2.1 entity he
  refine ⟨hsub, fun x hx => (ht.1 x hx).1, hev, ?_, ?_⟩
  · intro d p hp
    rw [hev d]; exact hone p hp
  · intro ds
    obtain ⟨last, hr, _, _⟩ := run_updates self c y ds
    have hpass : Impl.notifyEach (self.m_UpdateCallbacksMirror.getD [])
        = (liveSubscriptions ops).map (fun p => Event.callback p.1 p.2) := by
      rw [← Impl.Update_events self c y none]; exact hev none
    rw [hpass] at hr
    refine ⟨_, last, hr, rfl, ?_⟩
    intro p hp
    rw [count_flatten_replicate, hone p hp, Nat.mul_one]

/-- C6, at a concrete input: three registrations with one cancellation in between, then
an `Update` of a key that has no entry. -/
theorem C6_notification_on_every_update_witness :
    run Impl.ctor [Op.WatchForUpdates 10, Op.WatchForUpdates 11, Op.cancel ⟨0⟩,
        Op.WatchForUpdates 10]
      = some ([], ⟨[⟨11, true, 1⟩, ⟨10, true, 2⟩], some [⟨11, true, 1⟩, ⟨10, true, 2⟩], [], 3⟩) ∧
    ((⟨[⟨11, true, 1⟩, ⟨10, true, 2⟩], some [⟨11, true, 1⟩, ⟨10, true, 2⟩], [], 3⟩ : Impl).Update
        7 ISIN none).1
      = (liveSubscriptions [Op.WatchForUpdates 10, Op.WatchForUpdates 11, Op.cancel ⟨0⟩,
          Op.WatchForUpdates 10]).map (fun p => Event.callback p.1 p.2) :=
  ⟨by decide,
    (C6_notification_on_every_update
      [Op.WatchForUpdates 10, Op.WatchForUpdates 11, Op.cancel ⟨0⟩, Op.WatchForUpdates 10] []
      ⟨[⟨11, true, 1⟩, ⟨10, true, 2⟩], some [⟨11, true, 1⟩, ⟨10, true, 2⟩], [], 3⟩
      (by decide) 7 ISIN).2.2.1 none⟩

/-! ## Cancellation -/

/-- Once a node is gone from the list, no operation invokes it and no operation brings it
back. -/
theorem step_absent (self next : Impl) (op : Op) (evs : List Event)
    (acc : Nat × List (Nat × OnUpdateCallback)) (n : Nat)
    (h : step self op = some (evs, next)) (ht : self.Tracks acc)
    (hlt : n < self.nextNode) (hn : n ∉ self.m_UpdateCallbacks.map CallbackEntity.node) :
    (∀ cb, Event.callback n cb ∉ evs) ∧ n < next.nextNode ∧
      n ∉ next.m_UpdateCallbacks.map CallbackEntity.node := by
  cases op with
  | Get c y =>
    simp only [step, Option.some.injEq, Prod.mk.injEq] at h
    obtain ⟨h1, _, h3⟩ := Impl.Get_registry self c y
    rw [h.2] at h1 h3
    refine ⟨?_, by rw [h3]; exact hlt, by rw [h1]; exact hn⟩
    intro cb hcb
    rw [← h.1, Impl.Get_events] at hcb
    split at hcb <;> simp at hcb
  | Update c y d =>
    simp only [step, Option.some.injEq] at h
    obtain ⟨h1, _, h3⟩ := Impl.Update_registry self c y d
    have hev := Impl.Update_events_Tracks self acc ht c y d
    rw [h] at h1 h3 hev
    simp only at h1 h3 hev
    refine ⟨?_, by rw [h3]; exact hlt, by rw [h1]; exact hn⟩
    intro cb hcb
    rw [hev] at hcb
    obtain ⟨x, hx, hxe⟩ := List.mem_map.1 hcb
    simp only [CallbackEntity.invocation, Event.callback.injEq] at hxe
    exact hn (by rw [← hxe.1]; exact List.mem_map_of_mem _ hx)
  | WatchForUpdates cb =>
    simp only [step, Option.some.injEq, Prod.mk.injEq] at h
    rw [← h.2, ← h.1]
    refine ⟨by simp, by simp only [Impl.WatchForUpdates]; omega, ?_⟩
    simp only [Impl.WatchForUpdates, List.map_append, List.map_cons, List.map_nil,
      List.mem_append, List.mem_singleton, not_or]
    exact ⟨hn, by omega⟩
  | cancel f =>
    simp only [step, Option.map_eq_some', Prod.mk.injEq] at h
    obtain ⟨a, hcall, rfl, rfl⟩ := h
    by_cases hin : f.isSubscribed ∈ self.m_UpdateCallbacks.map CallbackEntity.node
    · rw [CancelWatchFunc.call_live f self acc ht hin] at hcall
      simp only [Option.some.injEq] at hcall
      subst hcall
      refine ⟨by simp, hlt, ?_⟩
      intro hmem
      obtain ⟨x, hx, hxn⟩ := List.mem_map.1 hmem
      exact hn (by rw [← hxn]; exact List.mem_map_of_mem _ (List.mem_of_mem_filter hx))
    · rw [CancelWatchFunc.call_dangling f self hin] at hcall
      cases hcall

theorem run_absent (ops : List Op) (self last : Impl) (tr : List Event)
    (acc : Nat × List (Nat × OnUpdateCallback)) (n : Nat)
    (h : run self ops = some (tr, last)) (ht : self.Tracks acc)
    (hlt : n < self.nextNode) (hn : n ∉ self.m_UpdateCallbacks.map CallbackEntity.node) :
    (∀ cb, Event.callback n cb ∉ tr) ∧ n < last.nextNode ∧
      n ∉ last.m_UpdateCallbacks.map CallbackEntity.node := by
  induction ops generalizing self tr acc with
  | nil =>
    simp only [run_nil, Option.some.injEq, Prod.mk.injEq] at h
    rw [← h.2, ← h.1]
    exact ⟨by simp, hlt, hn⟩
  | cons op ops ih =>
    obtain ⟨evs, next, tr1, hs, hr, rfl⟩ := (run_cons self op ops _ last).1 h
    obtain ⟨a1, a2, a3⟩ := step_absent self next op evs acc n hs ht hlt hn
    obtain ⟨b1, b2, b3⟩ :=
      ih next tr1 (registryStep acc op) hr (step_Tracks self next op evs acc hs ht) a2 a3
    refine ⟨?_, b2, b3⟩
    intro cb hcb
    rcases List.mem_append.1 hcb with hcb | hcb
    · exact a1 cb hcb
    · exact b1 cb hcb

/-- A record stays in the list as long as its own cancel functor is not called. -/
theorem run_persists (ops : List Op) (self last : Impl) (tr : List Event)
    (acc : Nat × List (Nat × OnUpdateCallback)) (entity : CallbackEntity)
    (h : run self ops = some (tr, last)) (ht : self.Tracks acc)
    (hin : entity ∈ self.m_UpdateCallbacks)
    (hno : ∀ g, Op.cancel g ∈ ops → g.isSubscribed ≠ entity.node) :
    entity ∈ last.m_UpdateCallbacks := by
  induction ops generalizing self tr acc with
  | nil =>
    simp only [run_nil, Option.some.injEq, Prod.mk.injEq] at h
    rw [← h.2]; exact hin
  | cons op ops ih =>
    obtain ⟨evs, next, tr1, hs, hr, rfl⟩ := (run_cons self op ops _ last).1 h
    have hno1 : ∀ g, Op.cancel g ∈ ops → g.isSubscribed ≠ entity.node :=
      fun g hg => hno g (List.mem_cons_of_mem op hg)
    refine ih next tr1 (registryStep acc op) hr (step_Tracks self next op evs acc hs ht) ?_ hno1
    cases op with
    | Get c y =>
      simp only [step, Option.some.injEq, Prod.mk.injEq] at hs
      rw [← hs.2, (Impl.Get_registry self c y).1]; exact hin
    | Update c y d =>
      simp only [step, Option.some.injEq] at hs
      have h1 := (Impl.Update_registry self c y d).1
      rw [hs] at h1
      simp only at h1
      rw [h1]; exact hin
    | WatchForUpdates cb =>
      simp only [step, Option.some.injEq, Prod.mk.injEq] at hs
      rw [← hs.2]
      simp [Impl.WatchForUpdates, hin]
    | cancel f =>
      simp only [step, Option.map_eq_some', Prod.mk.injEq] at hs
      obtain ⟨a, hcall, _, rfl⟩ := hs
      by_cases hmem : f.isSubscribed ∈ self.m_UpdateCallbacks.map CallbackEntity.node
      · rw [CancelWatchFunc.call_live f self acc ht hmem] at hcall
        simp only [Option.some.injEq] at hcall
        subst hcall
        have hne : entity.node ≠ f.isSubscribed :=
          fun e => hno f (List.mem_cons_self _ _) e.symm
        simp [List.mem_filter, hin, hne]
      · rw [CancelWatchFunc.call_dangling f self hmem] at hcall
        cases hcall

/-- The first call of the cancel functor of a subscription of the list. -/
theorem cancel_live (self : Impl) (acc : Nat × List (Nat × OnUpdateCallback))
    (ht : self.Tracks acc) (entity : CallbackEntity) (hlive : entity ∈ self.m_UpdateCallbacks) :
    ∃ next, (Impl.createCancelWatchFunctor entity.node).call self = some next ∧
      next.m_UpdateCallbacks
        = self.m_UpdateCallbacks.filter (fun x => decide (x.node ≠ entity.node)) ∧
      next.Tracks (registryStep acc (Op.cancel (Impl.createCancelWatchFunctor entity.node))) ∧
      entity.node < next.nextNode ∧
      entity.node ∉ next.m_UpdateCallbacks.map CallbackEntity.node := by
  have hin : (Impl.createCancelWatchFunctor entity.node).isSubscribed
      ∈ self.m_UpdateCallbacks.map CallbackEntity.node := List.mem_map_of_mem _ hlive
  have hcall := CancelWatchFunc.call_live (Impl.createCancelWatchFunctor entity.node) self _ ht hin
  refine ⟨_, hcall, rfl, ?_, (ht.1 entity hlive).2, ?_⟩
  · exact step_Tracks self _ (Op.cancel (Impl.createCancelWatchFunctor entity.node)) [] acc
      (by simp only [step, hcall, Option.map_some']) ht
  · intro hmem
    obtain ⟨x, hx, hxn⟩ := List.mem_map.1 hmem
    have := (List.mem_filter.1 hx).2
    simp [Impl.createCancelWatchFunctor, hxn] at this

/-- After its first call a cancel functor is dangling for good: in a state reached from a
fresh cache, the first call on a subscription of the list succeeds, and after any further
operations a second call has no defined result. -/
theorem cancel_twice_dangling (ops0 : List Op) (tr0 : List Event) (self : Impl)
    (h0 : run Impl.ctor ops0 = some (tr0, self))
    (entity : CallbackEntity) (hlive : entity ∈ self.m_UpdateCallbacks) :
    ∃ next, (Impl.createCancelWatchFunctor entity.node).call self = some next ∧
      ∀ (ops : List Op) (tr : List Event) (last : Impl), run next ops = some (tr, last) →
        (Impl.createCancelWatchFunctor entity.node).call last = none := by
  have ht := run_Tracks ops0 Impl.ctor self tr0 (0, []) h0 Impl.Tracks_ctor
  obtain ⟨next, hcall, _, ht1, hlt, hgone⟩ := cancel_live self _ ht entity hlive
  refine ⟨next, hcall, ?_⟩
  intro ops tr last hr
  have habs := run_absent ops next last tr _ entity.node hr ht1 hlt hgone
  exact CancelWatchFunc.call_dangling _ last habs.2.2

/-- C8, at the failing input: a callback is registered and its cancel functor is called
twice.  The first call erases the list node that holds the flag; the second call assigns
through the reference to the erased node, so it has no defined result — back to back, and
also with a registration and an `Update` in between. -/
theorem C8_cancel_twice :
    (Impl.ctor.WatchForUpdates 10).1 = ⟨0⟩ ∧
    CancelWatchFunc.call ⟨0⟩ (Impl.ctor.WatchForUpdates 10).2 = some ⟨[], some [], [], 1⟩ ∧
    CancelWatchFunc.call ⟨0⟩ ⟨[], some [], [], 1⟩ = none ∧
    run Impl.ctor [Op.WatchForUpdates 10, Op.cancel ⟨0⟩, Op.cancel ⟨0⟩] = none ∧
    run Impl.ctor [Op.WatchForUpdates 10, Op.cancel ⟨0⟩, Op.WatchForUpdates 11,
      Op.Update 7 ISIN none, Op.cancel ⟨0⟩] = none := by
  decide

/-! ## Keys stay, store and registry are independent -/

/-- One operation never takes the entry of a key away. -/
theorem step_keeps_key (self next : Impl) (op : Op) (evs : List Event)
    (h : step self op = some (evs, next)) (key : Key)
    (hk : (Contracts.find self.m_Contracts key).isSome = true) :
    (Contracts.find next.m_Contracts key).isSome = true := by
  rw [step_find self next op evs h key]
  cases op with
  | Get c y =>
    by_cases e : key = (c, y)
    · simp [Op.findAfter, e]
    · simpa [Op.findAfter, e] using hk
  | Update c y d =>
    by_cases e : key = (c, y)
    · simp [Op.findAfter, e]
    · simpa [Op.findAfter, e] using hk
  | WatchForUpdates cb => simpa [Op.findAfter] using hk
  | cancel f => simpa [Op.findAfter] using hk

/-- C11. Keys are never removed: in every state, a key that has an entry still has one
after a `Get`, after an `Update`, after a `WatchForUpdates` and after the call of a cancel
functor, on whatever key or subscription these act; hence it still has one after any
sequence of operations. -/
theorem C11_keys_never_removed (self : Impl) (key : Key)
    (hk : (Contracts.find self.m_Contracts key).isSome = true) :
    (∀ c y, (Contracts.find (self.Get c y).impl.m_Contracts key).isSome = true) ∧
    (∀ c y d, (Contracts.find (self.Update c y d).2.m_Contracts key).isSome = true) ∧
    (∀ cb, (Contracts.find (self.WatchForUpdates cb).2.m_Contracts key).isSome = true) ∧
    (∀ (f : CancelWatchFunc) (next : Impl), f.call self = some next →
      (Contracts.find next.m_Contracts key).isSome = true) ∧
    (∀ (ops : List Op) (tr : List Event) (last : Impl), run self ops = some (tr, last) →
      (Contracts.find last.m_Contracts key).isSome = true) := by
  refine ⟨?_, ?_, ?_, ?_, ?_⟩
  · intro c y
    exact step_keeps_key self _ (Op.Get c y) _ rfl key hk
  · intro c y d
    exact step_keeps_key self _ (Op.Update c y d) _ rfl key hk
  · intro cb
    exact step_keeps_key self _ (Op.WatchForUpdates cb) _ rfl key hk
  · intro f next hcall
    exact step_keeps_key self next (Op.cancel f) [] (by simp [step, hcall]) key hk
  · intro ops tr last hr
    exact (run_find_isSome ops self last tr hr key).2 (Or.inl hk)

/-- C11, at a concrete input: the entry of (7, ISIN) survives an `Update` with a null
descriptor on its own key and operations elsewhere. -/
theorem C11_keys_never_removed_witness :
    (Contracts.find (⟨[⟨10, true, 0⟩], some [⟨10, true, 0⟩],
        [((7, ISIN), ⟨Status.Ok, some 5⟩)], 1⟩ : Impl).m_Contracts (7, ISIN)).isSome = true ∧
    (Contracts.find (⟨[], some [], [((7, ISIN), ⟨Status.Error, none⟩),
        ((8, 0), ⟨Status.InProgress, none⟩)], 1⟩ : Impl).m_Contracts (7, ISIN)).isSome = true :=
  ⟨by decide,
    (C11_keys_never_removed
      ⟨[⟨10, true, 0⟩], some [⟨10, true, 0⟩], [((7, ISIN), ⟨Status.Ok, some 5⟩)], 1⟩ (7, ISIN)
      (by decide)).2.2.2.2
      [Op.Update 7 ISIN none, Op.Get 8 0, Op.cancel ⟨0⟩] [Event.callback 0 10,
        Event.RequestContractDesc 8 0]
      ⟨[], some [], [((7, ISIN), ⟨Status.Error, none⟩), ((8, 0), ⟨Status.InProgress, none⟩)], 1⟩
      (by decide)⟩

/-- C18. Store and registry are independent, in every state.  (i) `WatchForUpdates` and the
call of a cancel functor leave the store as it is and make no outside call at all: no
`RequestContractDesc`, no callback.  (ii) `Get`, hit or miss, leaves the subscriber list and
the mirror as they are, and the only outside call it can make is `RequestContractDesc` for
its own key.  (iii) `Get(k)` and `Update(k, d)` leave the entry of every other key as it is,
and every outside call of `Update` is a callback invocation, so it never calls
`RequestContractDesc`, whether or not `k` had an entry. -/
theorem C18_store_registry_independent (self : Impl) :
    (∀ cb, (self.WatchForUpdates cb).2.m_Contracts = self.m_Contracts ∧
      step self (Op.WatchForUpdates cb) = some ([], (self.WatchForUpdates cb).2)) ∧
    (∀ (f : CancelWatchFunc) (next : Impl), f.call self = some next →
      next.m_Contracts = self.m_Contracts ∧ step self (Op.cancel f) = some ([], next)) ∧
    (∀ c y, (self.Get c y).impl.m_UpdateCallbacks = self.m_UpdateCallbacks ∧
      (self.Get c y).impl.m_UpdateCallbacksMirror = self.m_UpdateCallbacksMirror ∧
      ∀ ev ∈ (self.Get c y).events, ev = Event.RequestContractDesc c y) ∧
    (∀ c y (k : Key), k ≠ (c, y) →
      Contracts.find (self.Get c y).impl.m_Contracts k = Contracts.find self.m_Contracts k) ∧
    (∀ c y d (k : Key), k ≠ (c, y) →
      Contracts.find (self.Update c y d).2.m_Contracts k = Contracts.find self.m_Contracts k) ∧
    (∀ c y d, (∀ ev ∈ (self.Update c y d).1, ∃ n g, ev = Event.callback n g) ∧
      ∀ key : Key, requestCount key (self.Update c y d).1 = 0) := by
  refine ⟨?_, ?_, ?_, ?_, ?_, ?_⟩
  · intro cb
    exact ⟨rfl, rfl⟩
  · intro f next hcall
    exact ⟨(CancelWatchFunc.call_store f self next hcall).1, by simp [step, hcall]⟩
  · intro c y
    refine ⟨(Impl.Get_registry self c y).1, (Impl.Get_registry self c y).2.1, ?_⟩
    intro ev hev
    rw [Impl.Get_events] at hev
    split at hev
    · simp at hev
    · simpa using hev
  · intro c y k hk
    rw [Impl.Get_find]; simp [hk]
  · intro c y d k hk
    rw [Impl.Update_find]; simp [hk]
  · intro c y d
    refine ⟨?_, fun key => Impl.Update_requestCount self c y d key⟩
    intro ev hev
    obtain ⟨x, _, hx⟩ := Impl.Update_events_callback self c y d ev hev
    exact ⟨x.node, x.callback, hx⟩

/-- C18, at a concrete input: a cancellation leaves the store alone, and an `Update` of a
key without an entry calls the one subscriber and nothing else. -/
theorem C18_store_registry_independent_witness :
    (Impl.createCancelWatchFunctor 0).call
        ⟨[⟨10, true, 0⟩], some [⟨10, true, 0⟩], [((7, ISIN), ⟨Status.Ok, some 5⟩)], 1⟩
      = some ⟨[], some [], [((7, ISIN), ⟨Status.Ok, some 5⟩)], 1⟩ ∧
    (⟨[], some [], [((7, ISIN), ⟨Status.Ok, some 5⟩)], 1⟩ : Impl).m_Contracts
      = [((7, ISIN), ⟨Status.Ok, some 5⟩)] :=
  ⟨by decide,
    ((C18_store_registry_independent
      ⟨[⟨10, true, 0⟩], some [⟨10, true, 0⟩], [((7, ISIN), ⟨Status.Ok, some 5⟩)], 1⟩).2.1
      (Impl.createCancelWatchFunctor 0) ⟨[], some [], [((7, ISIN), ⟨Status.Ok, some 5⟩)], 1⟩
      (by decide)).1⟩

/-- C16. The end-to-end scenario, for every callback `cb` and every descriptor `D`: on a
fresh cache with one watcher registered, `Get(7, ISIN)` returns `{InProgress, null}` and
makes exactly the call `RequestContractDesc(7, ISIN)`; `Update(7, ISIN, D)` then makes
exactly one call, the watcher's callback; the next `Get(7, ISIN)` returns `{Ok, D}` and makes
no call.  Over the whole scenario there is one request and one callback invocation. -/
theorem C16_end_to_end (cb : OnUpdateCallback) (D : Nat) :
    ((Impl.ctor.WatchForUpdates cb).2.Get 7 ISIN).returnedResult = ⟨Status.InProgress, none⟩ ∧
    ((Impl.ctor.WatchForUpdates cb).2.Get 7 ISIN).events = [Event.RequestContractDesc 7 ISIN] ∧
    (((Impl.ctor.WatchForUpdates cb).2.Get 7 ISIN).impl.Update 7 ISIN (some D)).1
      = [Event.callback 0 cb] ∧
    ((((Impl.ctor.WatchForUpdates cb).2.Get 7 ISIN).impl.Update 7 ISIN (some D)).2.Get
      7 ISIN).returnedResult = ⟨Status.Ok, some D⟩ ∧
    ((((Impl.ctor.WatchForUpdates cb).2.Get 7 ISIN).impl.Update 7 ISIN (some D)).2.Get
      7 ISIN).events = [] ∧
    run Impl.ctor [Op.WatchForUpdates cb, Op.Get 7 ISIN, Op.Update 7 ISIN (some D),
        Op.Get 7 ISIN]
      = some ([Event.RequestContractDesc 7 ISIN, Event.callback 0 cb],
          ⟨[⟨cb, true, 0⟩], some [⟨cb, true, 0⟩], [((7, ISIN), ⟨Status.Ok, some D⟩)], 1⟩) ∧
    requestCount (7, ISIN) [Event.RequestContractDesc 7 ISIN, Event.callback 0 cb] = 1 ∧
    [Event.RequestContractDesc 7 ISIN, Event.callback 0 cb].count (Event.callback 0 cb) = 1 := by
  refine ⟨rfl, rfl, rfl, rfl, rfl, rfl, ?_, ?_⟩
  · simp [requestCount]
  · simp

/-! ## The registry along registrations and cancellations -/

theorem registrationsFrom_ge (ops : List Op) (n : Nat) :
    ∀ p ∈ registrationsFrom n ops, n ≤ p.1 := by
  induction ops generalizing n with
  | nil => simp [registrationsFrom]
  | cons op ops ih =>
    intro p hp
    cases op with
    | WatchForUpdates cb =>
      simp only [registrationsFrom, List.mem_cons] at hp
      rcases hp with hp | hp
      · subst hp; exact Nat.le_refl _
      · exact Nat.le_of_succ_le (ih (n + 1) p hp)
    | Get c y => exact ih n p (by simpa [registrationsFrom] using hp)
    | Update c y d => exact ih n p (by simpa [registrationsFrom] using hp)
    | cancel f => exact ih n p (by simpa [registrationsFrom] using hp)

/-- Along a history in which every cancel functor is called on a subscription that is
registered and not cancelled yet, the registry of the specification holds the registrations
whose handle is cancelled nowhere in the history. -/
theorem foldl_registryStep_eq (ops : List Op) (n : Nat) (L : List (Nat × OnUpdateCallback))
    (hL : ∀ p ∈ L, p.1 < n) (hv : handlesLive (n, L) ops = true) :
    ops.foldl registryStep (n, L) =
      (n + (registrationsFrom n ops).length,
        (L ++ registrationsFrom n ops).filter (fun p => decide (Op.cancel ⟨p.1⟩ ∉ ops))) := by
  induction ops generalizing n L with
  | nil => simp [registrationsFrom]
  | cons op ops ih =>
    cases op with
    | WatchForUpdates cb =>
      have hv1 : handlesLive (n + 1, L ++ [(n, cb)]) ops = true := by
        simpa [handlesLive, registryStep] using hv
      have hL1 : ∀ p ∈ L ++ [(n, cb)], p.1 < n + 1 := by
        intro p hp
        rcases List.mem_append.1 hp with hp | hp
        · exact Nat.lt_succ_of_lt (hL p hp)
        · simp only [List.mem_singleton] at hp
          subst hp; exact Nat.lt_succ_self _
      simp only [List.foldl_cons, registryStep]
      rw [ih (n + 1) (L ++ [(n, cb)]) hL1 hv1]
      simp only [registrationsFrom, List.length_cons, List.append_assoc, List.singleton_append,
        List.mem_cons, reduceCtorEq, false_or, Prod.mk.injEq, and_true]
      omega
    | cancel f =>
      have hv0 : f.isSubscribed ∈ L.map Prod.fst ∧
          handlesLive (n, L.filter (fun p => decide (p.1 ≠ f.isSubscribed))) ops = true := by
        simpa [handlesLive, registryStep] using hv
      have hL1 : ∀ p ∈ L.filter (fun p => decide (p.1 ≠ f.isSubscribed)), p.1 < n :=
        fun p hp => hL p (List.mem_of_mem_filter hp)
      have hlt : f.isSubscribed < n := by
        obtain ⟨p, hp, hpe⟩ := List.mem_map.1 hv0.1
        rw [← hpe]; exact hL p hp
      simp only [List.foldl_cons, registryStep]
      rw [ih n _ hL1 hv0.2]
      simp only [registrationsFrom, Prod.mk.injEq, true_and]
      rw [List.filter_append, List.filter_append, List.filter_filter]
      congr 1
      · apply List.filter_congr
        intro p _
        cases f with
        | mk r =>
          by_cases e : p.1 = r <;> simp [e]
      · apply List.filter_congr
        intro p hp
        have hge := registrationsFrom_ge ops n p hp
        cases f with
        | mk r =>
          have e : ¬ p.1 = r := by
            simp only at hlt
            omega
          simp [e]
    | Get c y =>
      have hv1 : handlesLive (n, L) ops = true := by simpa [handlesLive, registryStep] using hv
      simp only [List.foldl_cons, registryStep]
      rw [ih n L hL hv1]
      simp [registrationsFrom]
    | Update c y d =>
      have hv1 : handlesLive (n, L) ops = true := by simpa [handlesLive, registryStep] using hv
      simp only [List.foldl_cons, registryStep]
      rw [ih n L hL hv1]
      simp [registrationsFrom]

theorem liveSubscriptions_eq_neverCancelled (ops : List Op)
    (hv : handlesLive (0, []) ops = true) : liveSubscriptions ops = neverCancelled ops := by
  unfold liveSubscriptions neverCancelled registrations
  rw [foldl_registryStep_eq ops 0 [] (by simp) hv]
  simp

theorem Reentry.execAll_nil (self : Impl) : Reentry.execAll self [] = some ([], self) := rfl

theorem Reentry.execAll_cons (self : Impl) (r : Reentry) (rs : List Reentry)
    (obs : List Observation) (last : Impl) :
    Reentry.execAll self (r :: rs) = some (obs, last) ↔
      ∃ o1 next o2, Reentry.exec self r = some (o1, next) ∧
        Reentry.execAll next rs = some (o2, last) ∧ obs = o1 ++ o2 := by
  constructor
  · intro h
    unfold Reentry.execAll at h
    cases hs : Reentry.exec self r with
    | none => simp [hs] at h
    | some p =>
      obtain ⟨o1, next⟩ := p
      cases hr : Reentry.execAll next rs with
      | none => simp [hs, hr] at h
      | some q =>
        obtain ⟨o2, l⟩ := q
        simp only [hs, hr, Option.some.injEq, Prod.mk.injEq] at h
        obtain ⟨h1, h2⟩ := h
        subst h2
        exact ⟨o1, next, o2, rfl, hr, h1.symm⟩
  · rintro ⟨o1, next, o2, hs, hr, rfl⟩
    unfold Reentry.execAll
    simp [hs, hr]

theorem Impl.notifyEachWith_cons (body : OnUpdateCallback → List Reentry)
    (entity : CallbackEntity) (rest : UpdateCallbacks) (self last : Impl)
    (obs : List Observation) (he : entity.isSubscribed = true) :
    Impl.notifyEachWith body (entity :: rest) self = some (obs, last) ↔
      ∃ o1 next o2, Reentry.execAll self (body entity.callback) = some (o1, next) ∧
        Impl.notifyEachWith body rest next = some (o2, last) ∧
        obs = Observation.call (Event.callback entity.node entity.callback) :: (o1 ++ o2) := by
  constructor
  · intro h
    unfold Impl.notifyEachWith at h
    simp only [he, if_true] at h
    cases hs : Reentry.execAll self (body entity.callback) with
    | none => simp [hs] at h
    | some p =>
      obtain ⟨o1, next⟩ := p
      cases hr : Impl.notifyEachWith body rest next with
      | none => simp [hs, hr] at h
      | some q =>
        obtain ⟨o2, l⟩ := q
        simp only [hs, hr, Option.some.injEq, Prod.mk.injEq] at h
        obtain ⟨h1, h2⟩ := h
        subst h2
        exact ⟨o1, next, o2, rfl, hr, h1.symm⟩
  · rintro ⟨o1, next, o2, hs, hr, rfl⟩
    unfold Impl.notifyEachWith
    simp [he, hs, hr]

theorem Impl.notifyEachWith_skip (body : OnUpdateCallback → List Reentry)
    (entity : CallbackEntity) (rest : UpdateCallbacks) (self : Impl)
    (he : entity.isSubscribed = false) :
    Impl.notifyEachWith body (entity :: rest) self = Impl.notifyEachWith body rest self := by
  rw [Impl.notifyEachWith]
  simp [he]

/-- With callbacks that do not call back, `UpdateWith` is `Update`. -/
theorem Impl.notifyEachWith_silent (snapshot : UpdateCallbacks) (self : Impl) :
    Impl.notifyEachWith (fun _ => []) snapshot self
      = some ((Impl.notifyEach snapshot).map Observation.call, self) := by
  induction snapshot with
  | nil => rfl
  | cons e rest ih =>
    by_cases he : e.isSubscribed = true
    · rw [Impl.notifyEachWith]
      simp [he, Reentry.execAll, ih, Impl.notifyEach]
    · have he2 : e.isSubscribed = false := by simpa using he
      rw [Impl.notifyEachWith_skip _ e rest self he2, ih]
      simp [Impl.notifyEach, he2]

theorem Impl.UpdateWith_silent (self : Impl) (c : ContractID) (y : Symbology)
    (d : ContractDescPtr) :
    self.UpdateWith (fun _ => []) c y d
      = some ((self.Update c y d).1.map Observation.call, (self.Update c y d).2) := by
  simp only [Impl.UpdateWith, Impl.notifyAllWith, Impl.Update, Impl.notifyAll]
  cases hm : self.m_UpdateCallbacksMirror with
  | none => simp
  | some l => simp [Impl.notifyEachWith_silent]

/-- A call made by a callback leaves an entry that is present as it is; a `Get` of that key
returns the entry and requests nothing for it. -/
theorem Reentry.exec_written (self next : Impl) (r : Reentry) (obs : List Observation)
    (c : ContractID) (y : Symbology) (new : Result)
    (hf : Contracts.find self.m_Contracts (c, y) = some new)
    (h : Reentry.exec self r = some (obs, next)) :
    Contracts.find next.m_Contracts (c, y) = some new ∧
    (∀ r1, Observation.returned c y r1 ∈ obs → r1 = new) ∧
    Observation.call (Event.RequestContractDesc c y) ∉ obs := by
  cases r with
  | Get c1 y1 =>
    simp only [Reentry.exec, Option.some.injEq, Prod.mk.injEq] at h
    obtain ⟨h1, h2⟩ := h
    subst h1; subst h2
    by_cases e : (c1, y1) = (c, y)
    · injection e with e1 e2
      subst e1; subst e2
      rw [Impl.Get_hit self c1 y1 new hf]
      simp [hf]
    · have e2 : ¬ (c, y) = (c1, y1) := fun x => e x.symm
      have e3 : ¬ (c1 = c ∧ y1 = y) := fun x => e (by rw [x.1, x.2])
      have e4 : ¬ (c = c1 ∧ y = y1) := fun x => e (by rw [x.1, x.2])
      refine ⟨?_, ?_, ?_⟩
      · rw [Impl.Get_find]; simp [e2, hf]
      · intro r1 hr1
        simp only [List.mem_append, List.mem_map, List.mem_singleton, Observation.returned.injEq,
          reduceCtorEq, and_false, exists_false, false_or] at hr1
        exact absurd ⟨hr1.1, hr1.2.1⟩ e4
      · intro hmem
        simp only [List.mem_append, List.mem_map, Observation.call.injEq, exists_eq_right,
          List.mem_singleton, reduceCtorEq, or_false] at hmem
        rw [Impl.Get_events] at hmem
        split at hmem
        · simp at hmem
        · simp only [List.mem_singleton, Event.RequestContractDesc.injEq] at hmem
          exact e4 hmem
  | WatchForUpdates cb =>
    simp only [Reentry.exec, Option.some.injEq, Prod.mk.injEq] at h
    obtain ⟨h1, h2⟩ := h
    subst h1; subst h2
    exact ⟨by simpa [Impl.WatchForUpdates] using hf, by simp, by simp⟩
  | cancel f =>
    simp only [Reentry.exec, Option.map_eq_some', Prod.mk.injEq] at h
    obtain ⟨a, ha, rfl, rfl⟩ := h
    refine ⟨?_, by simp, by simp⟩
    rw [(CancelWatchFunc.call_store f self a ha).1]; exact hf

theorem Reentry.execAll_written (rs : List Reentry) (self last : Impl)
    (obs : List Observation) (c : ContractID) (y : Symbology) (new : Result)
    (hf : Contracts.find self.m_Contracts (c, y) = some new)
    (h : Reentry.execAll self rs = some (obs, last)) :
    Contracts.find last.m_Contracts (c, y) = some new ∧
    (∀ r1, Observation.returned c y r1 ∈ obs → r1 = new) ∧
    Observation.call (Event.RequestContractDesc c y) ∉ obs := by
  induction rs generalizing self obs with
  | nil =>
    simp only [Reentry.execAll_nil, Option.some.injEq, Prod.mk.injEq] at h
    obtain ⟨h1, h2⟩ := h
    subst h1; subst h2
    exact ⟨hf, by simp, by simp⟩
  | cons r rs ih =>
    obtain ⟨o1, next, o2, hs, hr, rfl⟩ := (Reentry.execAll_cons self r rs _ last).1 h
    obtain ⟨a1, a2, a3⟩ := Reentry.exec_written self next r o1 c y new hf hs
    obtain ⟨b1, b2, b3⟩ := ih next o2 a1 hr
    refine ⟨b1, ?_, ?_⟩
    · intro r1 hr1
      rcases List.mem_append.1 hr1 with x | x
      · exact a2 r1 x
      · exact b2 r1 x
    · intro hmem
      rcases List.mem_append.1 hmem with x | x
      · exact a3 x
      · exact b3 x

theorem Impl.notifyEachWith_written (body : OnUpdateCallback → List Reentry)
    (snapshot : UpdateCallbacks) (self last : Impl) (obs : List Observation)
    (c : ContractID) (y : Symbology) (new : Result)
    (hf : Contracts.find self.m_Contracts (c, y) = some new)
    (h : Impl.notifyEachWith body snapshot self = some (obs, last)) :
    Contracts.find last.m_Contracts (c, y) = some new ∧
    (∀ r1, Observation.returned c y r1 ∈ obs → r1 = new) ∧
    Observation.call (Event.RequestContractDesc c y) ∉ obs := by
  induction snapshot generalizing self obs with
  | nil =>
    simp only [Impl.notifyEachWith, Option.some.injEq, Prod.mk.injEq] at h
    obtain ⟨h1, h2⟩ := h
    subst h1; subst h2
    exact ⟨hf, by simp, by simp⟩
  | cons e rest ih =>
    by_cases he : e.isSubscribed = true
    · obtain ⟨o1, next, o2, hs, hr, rfl⟩ := (Impl.notifyEachWith_cons body e rest self last _ he).1 h
      obtain ⟨a1, a2, a3⟩ := Reentry.execAll_written _ self next o1 c y new hf hs
      obtain ⟨b1, b2, b3⟩ := ih next o2 a1 hr
      refine ⟨b1, ?_, ?_⟩
      · intro r1 hr1
        simp only [List.mem_cons, reduceCtorEq, false_or, List.mem_append] at hr1
        rcases hr1 with x | x
        · exact a2 r1 x
        · exact b2 r1 x
      · intro hmem
        simp only [List.mem_cons, Observation.call.injEq, reduceCtorEq, false_or,
          List.mem_append] at hmem
        rcases hmem with x | x
        · exact a3 x
        · exact b3 x
    · have he2 : e.isSubscribed = false := by simpa using he
      rw [Impl.notifyEachWith_skip body e rest self he2] at h
      exact ih self obs hf h

/-- The turn of one record in a pass: the pass over the records before it, then its
callback, then the pass over the records after it. -/
theorem Impl.notifyEachWith_split (body : OnUpdateCallback → List Reentry)
    (pre : UpdateCallbacks) (entity : CallbackEntity) (post : UpdateCallbacks)
    (self last : Impl) (obs : List Observation) (he : entity.isSubscribed = true)
    (h : Impl.notifyEachWith body (pre ++ entity :: post) self = some (obs, last)) :
    ∃ obs1 mid obs2 next obs3,
      Impl.notifyEachWith body pre self = some (obs1, mid) ∧
      Reentry.execAll mid (body entity.callback) = some (obs2, next) ∧
      Impl.notifyEachWith body post next = some (obs3, last) ∧
      obs = obs1 ++ Observation.call (Event.callback entity.node entity.callback)
        :: (obs2 ++ obs3) := by
  induction pre generalizing self obs with
  | nil =>
    obtain ⟨o1, next, o2, hs, hr, rfl⟩ :=
      (Impl.notifyEachWith_cons body entity post self last _ he).1 h
    exact ⟨[], self, o1, next, o2, rfl, hs, hr, rfl⟩
  | cons e pre ih =>
    rw [List.cons_append] at h
    by_cases hsub : e.isSubscribed = true
    · obtain ⟨o1, next, o2, hs, hr, rfl⟩ :=
        (Impl.notifyEachWith_cons body e _ self last _ hsub).1 h
      obtain ⟨obs1, mid, obs2, next2, obs3, h1, h2, h3, rfl⟩ := ih next o2 hr
      refine ⟨Observation.call (Event.callback e.node e.callback) :: (o1 ++ obs1), mid, obs2,
        next2, obs3, ?_, h2, h3, by simp⟩
      exact (Impl.notifyEachWith_cons body e pre self mid _ hsub).2 ⟨o1, next, obs1, hs, h1, rfl⟩
    · have he2 : e.isSubscribed = false := by simpa using hsub
      rw [Impl.notifyEachWith_skip body e _ self he2] at h
      obtain ⟨obs1, mid, obs2, next2, obs3, h1, h2, h3, rfl⟩ := ih self obs h
      refine ⟨obs1, mid, obs2, next2, obs3, ?_, h2, h3, rfl⟩
      rw [Impl.notifyEachWith_skip body e pre self he2]; exact h1

/-- C12. `Update` writes before it notifies.  Let the callbacks call back into the cache
with any lookups, registrations and cancellations, and let `Update(k, d)` run to its end.
The notification pass is `notifyAll` on the written state.  At the turn of every record of
the snapshot whose callback is invoked, the state the callback is entered in (the one the
records before it have left) maps `k` to the new `Result`, `{Ok, d}` for a non-null `d` and
`{Error, null}` otherwise, so a `Get(k)` made there returns it, requests nothing and changes
nothing.  Every `Get(k)` that any callback makes during the pass returns the new `Result`,
no `RequestContractDesc` for `k` occurs in the pass, and `k` still maps to the new `Result`
after it.  (A pass runs to its end unless a callback calls a cancel functor whose node is
gone; lookups and registrations always have a result, see `Impl.UpdateWith_isSome`.) -/
theorem C12_update_writes_before_notify (body : OnUpdateCallback → List Reentry)
    (self : Impl) (c : ContractID) (y : Symbology) (d : ContractDescPtr)
    (obs : List Observation) (last : Impl)
    (h : self.UpdateWith body c y d = some (obs, last)) :
    self.UpdateWith body c y d = Impl.notifyAllWith body (self.Update c y d).2 ∧
    (∀ pre entity post,
      (self.Update c y d).2.m_UpdateCallbacksMirror = some (pre ++ entity :: post) →
      entity.isSubscribed = true →
      ∃ obs1 mid obs2 next obs3,
        Impl.notifyEachWith body pre (self.Update c y d).2 = some (obs1, mid) ∧
        Reentry.execAll mid (body entity.callback) = some (obs2, next) ∧
        Impl.notifyEachWith body post next = some (obs3, last) ∧
        obs = obs1 ++ Observation.call (Event.callback entity.node entity.callback)
          :: (obs2 ++ obs3) ∧
        Contracts.find mid.m_Contracts (c, y)
          = some ⟨if d.isSome then Status.Ok else Status.Error, d⟩ ∧
        (mid.Get c y).returnedResult = ⟨if d.isSome then Status.Ok else Status.Error, d⟩ ∧
        (mid.Get c y).events = [] ∧ (mid.Get c y).impl = mid) ∧
    (∀ r, Observation.returned c y r ∈ obs →
      r = ⟨if d.isSome then Status.Ok else Status.Error, d⟩) ∧
    Observation.call (Event.RequestContractDesc c y) ∉ obs ∧
    Contracts.find last.m_Contracts (c, y)
      = some ⟨if d.isSome then Status.Ok else Status.Error, d⟩ := by
  have hw : Contracts.find (self.Update c y d).2.m_Contracts (c, y)
      = some ⟨if d.isSome then Status.Ok else Status.Error, d⟩ := by
    rw [Impl.Update_find]; simp
  have hdef : self.UpdateWith body c y d = Impl.notifyAllWith body (self.Update c y d).2 := rfl
  rw [hdef] at h
  refine ⟨hdef, ?_, ?_⟩
  · intro pre entity post hm he
    simp only [Impl.notifyAllWith, hm] at h
    obtain ⟨obs1, mid, obs2, next, obs3, h1, h2, h3, hobs⟩ :=
      Impl.notifyEachWith_split body pre entity post _ last obs he h
    have hmid := (Impl.notifyEachWith_written body pre _ mid obs1 c y _ hw h1).1
    refine ⟨obs1, mid, obs2, next, obs3, h1, h2, h3, hobs, hmid, ?_⟩
    simp [Impl.Get_hit mid c y _ hmid]
  · cases hm : (self.Update c y d).2.m_UpdateCallbacksMirror with
    | none =>
      simp only [Impl.notifyAllWith, hm, Option.some.injEq, Prod.mk.injEq] at h
      obtain ⟨h1, h2⟩ := h
      subst h1; subst h2
      exact ⟨by simp, by simp, hw⟩
    | some l =>
      simp only [Impl.notifyAllWith, hm] at h
      obtain ⟨a1, a2, a3⟩ := Impl.notifyEachWith_written body l _ last obs c y _ hw h
      exact ⟨a2, a3, a1⟩

/-- C12, at a concrete input: two subscribers whose callbacks look the updated key up, one
of them also another key, on a cache that had no entry for the updated key. -/
theorem C12_update_writes_before_notify_witness :
    Impl.UpdateWith (fun cb => if cb = 10 then [Reentry.Get 7 ISIN]
        else [Reentry.Get 8 0, Reentry.Get 7 ISIN])
      ⟨[⟨10, true, 0⟩, ⟨11, true, 1⟩], some [⟨10, true, 0⟩, ⟨11, true, 1⟩], [], 2⟩ 7 ISIN (some 5)
      = some ([Observation.call (Event.callback 0 10),
          Observation.returned 7 ISIN ⟨Status.Ok, some 5⟩,
          Observation.call (Event.callback 1 11),
          Observation.call (Event.RequestContractDesc 8 0),
          Observation.returned 8 0 ⟨Status.InProgress, none⟩,
          Observation.returned 7 ISIN ⟨Status.Ok, some 5⟩],
        ⟨[⟨10, true, 0⟩, ⟨11, true, 1⟩], some [⟨10, true, 0⟩, ⟨11, true, 1⟩],
          [((7, ISIN), ⟨Status.Ok, some 5⟩), ((8, 0), ⟨Status.InProgress, none⟩)], 2⟩) ∧
    Contracts.find [(((7, ISIN), ⟨Status.Ok, some 5⟩) : Key × Result),
        ((8, 0), ⟨Status.InProgress, none⟩)] (7, ISIN) = some ⟨Status.Ok, some 5⟩ :=
  ⟨by decide,
    (C12_update_writes_before_notify
      (fun cb => if cb = 10 then [Reentry.Get 7 ISIN] else [Reentry.Get 8 0, Reentry.Get 7 ISIN])
      ⟨[⟨10, true, 0⟩, ⟨11, true, 1⟩], some [⟨10, true, 0⟩, ⟨11, true, 1⟩], [], 2⟩ 7 ISIN (some 5)
      [Observation.call (Event.callback 0 10),
        Observation.returned 7 ISIN ⟨Status.Ok, some 5⟩,
        Observation.call (Event.callback 1 11),
        Observation.call (Event.RequestContractDesc 8 0),
        Observation.returned 8 0 ⟨Status.InProgress, none⟩,
        Observation.returned 7 ISIN ⟨Status.Ok, some 5⟩]
      ⟨[⟨10, true, 0⟩, ⟨11, true, 1⟩], some [⟨10, true, 0⟩, ⟨11, true, 1⟩],
        [((7, ISIN), ⟨Status.Ok, some 5⟩), ((8, 0), ⟨Status.InProgress, none⟩)], 2⟩
      (by decide)).2.2.2.2⟩

/-! ## The flag of a record in a snapshot -/

/-- While a cancel functor exists the weak pointer made at its call has not expired. -/
theorem SharedImpl.lock_of_functor (w : SharedImpl) (h : 0 < w.functors) :
    w.lock = w.impl := by
  have : 0 < w.use_count := by
    unfold SharedImpl.use_count
    omega
  simp [SharedImpl.lock, this]

/-- As long as a functor exists, neither the destructor of the `ContractCache` object nor
the destruction of another functor destroys the `Impl`. -/
theorem SharedImpl.alive_of_functor (w : SharedImpl) (h : 0 < w.functors) :
    w.dtor.impl = w.impl ∧ (1 < w.functors → w.dropFunctor.impl = w.impl) := by
  constructor
  · have : ¬ w.functors = 0 := by omega
    simp [SharedImpl.dtor, this]
  · intro h2
    have : ¬ w.functors - 1 = 0 := by omega
    simp [SharedImpl.dropFunctor, this]

/-- C14, at the failing input: a cache is constructed, one callback is registered and the
`ContractCache` object is destroyed.  The cancel functor still owns a share, so the `Impl`
outlives its `ContractCache` (without the functor it is destroyed); the functor's call then
finds the `Impl`, erases the subscription and stores a new mirror, so it is not a no-op.
The branch of `unsubscribe` for an expired weak pointer does nothing, and is only reached
once the last functor is gone, when no functor is left to call. -/
theorem C14_functor_owns_the_impl :
    SharedImpl.ctor.WatchForUpdates 10
      = some (⟨0⟩, ⟨some ⟨[⟨10, true, 0⟩], some [⟨10, true, 0⟩], [], 1⟩, true, 1⟩) ∧
    SharedImpl.dtor ⟨some ⟨[⟨10, true, 0⟩], some [⟨10, true, 0⟩], [], 1⟩, true, 1⟩
      = ⟨some ⟨[⟨10, true, 0⟩], some [⟨10, true, 0⟩], [], 1⟩, false, 1⟩ ∧
    SharedImpl.ctor.dtor = ⟨none, false, 0⟩ ∧
    SharedImpl.callFunctor ⟨some ⟨[⟨10, true, 0⟩], some [⟨10, true, 0⟩], [], 1⟩, false, 1⟩ ⟨0⟩
      = some ⟨some ⟨[], some [], [], 1⟩, false, 1⟩ ∧
    SharedImpl.dropFunctor ⟨some ⟨[], some [], [], 1⟩, false, 1⟩ = ⟨none, false, 0⟩ ∧
    SharedImpl.callFunctor ⟨none, false, 0⟩ ⟨0⟩ = none ∧
    Impl.unsubscribe (SharedImpl.lock ⟨none, false, 0⟩) 0 = some none := by
  decide

/-! ## When a pass with callbacks that call back runs to its end -/

theorem Reentry.execAll_isSome (rs : List Reentry) (self : Impl)
    (hno : ∀ r ∈ rs, ∀ f, r ≠ Reentry.cancel f) :
    (Reentry.execAll self rs).isSome = true := by
  induction rs generalizing self with
  | nil => rfl
  | cons r rs ih =>
    have hrest : ∀ x ∈ rs, ∀ f, x ≠ Reentry.cancel f :=
      fun x hx => hno x (List.mem_cons_of_mem r hx)
    cases r with
    | Get c y =>
      have := ih (self.Get c y).impl hrest
      cases hr : Reentry.execAll (self.Get c y).impl rs with
      | none => simp [hr] at this
      | some q => simp [Reentry.execAll, Reentry.exec, hr]
    | WatchForUpdates cb =>
      have := ih (self.WatchForUpdates cb).2 hrest
      cases hr : Reentry.execAll (self.WatchForUpdates cb).2 rs with
      | none => simp [hr] at this
      | some q => simp [Reentry.execAll, Reentry.exec, hr]
    | cancel f => exact absurd rfl (hno _ (List.mem_cons_self _ _) f)

/-- A pass runs to its end when no callback calls a cancel functor: lookups and
registrations made by callbacks always have a result. -/
theorem Impl.notifyEachWith_isSome (body : OnUpdateCallback → List Reentry)
    (hno : ∀ cb, ∀ r ∈ body cb, ∀ f, r ≠ Reentry.cancel f)
    (snapshot : UpdateCallbacks) (self : Impl) :
    (Impl.notifyEachWith body snapshot self).isSome = true := by
  induction snapshot generalizing self with
  | nil => rfl
  | cons e rest ih =>
    by_cases he : e.isSubscribed = true
    · have h1 := Reentry.execAll_isSome (body e.callback) self (hno e.callback)
      cases hx : Reentry.execAll self (body e.callback) with
      | none => simp [hx] at h1
      | some p =>
        obtain ⟨o1, next⟩ := p
        have h2 := ih next
        cases hy : Impl.notifyEachWith body rest next with
        | none => simp [hy] at h2
        | some q =>
          obtain ⟨o2, last⟩ := q
          rw [(Impl.notifyEachWith_cons body e rest self last _ he).2 ⟨o1, next, o2, hx, hy, rfl⟩]
          rfl
    · have he2 : e.isSubscribed = false := by simpa using he
      rw [Impl.notifyEachWith_skip body e rest self he2]
      exact ih self

theorem Impl.UpdateWith_isSome (body : OnUpdateCallback → List Reentry)
    (hno : ∀ cb, ∀ r ∈ body cb, ∀ f, r ≠ Reentry.cancel f)
    (self : Impl) (c : ContractID) (y : Symbology) (d : ContractDescPtr) :
    (self.UpdateWith body c y d).isSome = true := by
  simp only [Impl.UpdateWith, Impl.notifyAllWith]
  cases hm : self.m_UpdateCallbacksMirror with
  | none => rfl
  | some l => exact Impl.notifyEachWith_isSome body hno l _

/-! ## The functor that a registration returns -/

/-- What the specification's numbering says about a registration, as the code produces
it: the functor bound to node `p.1` and the single record appended for it. -/
theorem registeredFrom_eq (ops : List Op) (self last : Impl) (tr : List Event)
    (acc : Nat × List (Nat × OnUpdateCallback)) (ht : self.Tracks acc)
    (h : run self ops = some (tr, last)) :
    registeredFrom self ops
      = (registrationsFrom acc.1 ops).map
          (fun p => ((⟨p.1⟩ : CancelWatchFunc), [(⟨p.2, true, p.1⟩ : CallbackEntity)])) := by
  induction ops generalizing self tr acc with
  | nil => rfl
  | cons op ops ih =>
    obtain ⟨evs, next, tr1, hs, hr, rfl⟩ := (run_cons self op ops _ last).1 h
    have ht1 := step_Tracks self next op evs acc hs ht
    cases op with
    | WatchForUpdates cb =>
      simp only [step, Option.some.injEq, Prod.mk.injEq] at hs
      have hnext : (self.WatchForUpdates cb).2 = next := hs.2
      have hfun : (self.WatchForUpdates cb).1 = ⟨acc.1⟩ := by
        simp [Impl.WatchForUpdates, Impl.createCancelWatchFunctor, ht.2.2.2.1]
      have hrec : (self.WatchForUpdates cb).2.m_UpdateCallbacks.drop self.m_UpdateCallbacks.length
          = [⟨cb, true, acc.1⟩] := by
        simp [Impl.WatchForUpdates, ht.2.2.2.1]
      have hrest := ih next tr1 (registryStep acc (Op.WatchForUpdates cb)) ht1 hr
      simp only [registryStep] at hrest
      rw [hnext] at hrec
      simp only [registeredFrom, registrationsFrom, List.map_cons, hfun, hnext, hrec, hrest]
    | Get c y =>
      have hrest := ih next tr1 (registryStep acc (Op.Get c y)) ht1 hr
      simp only [registryStep] at hrest
      simp only [registeredFrom, hs, registrationsFrom, hrest]
    | Update c y d =>
      have hrest := ih next tr1 (registryStep acc (Op.Update c y d)) ht1 hr
      simp only [registryStep] at hrest
      simp only [registeredFrom, hs, registrationsFrom, hrest]
    | cancel f =>
      have hrest := ih next tr1 (registryStep acc (Op.cancel f)) ht1 hr
      simp only [registryStep] at hrest
      simp only [registeredFrom, hs, registrationsFrom, hrest]

/-- A record of the list of a reached state was appended by a registration of the history;
the functor that registration returned is the one bound to the record's node, and it is
called nowhere in the history. -/
theorem live_registered (ops0 : List Op) (tr0 : List Event) (self : Impl)
    (h0 : run Impl.ctor ops0 = some (tr0, self))
    (entity : CallbackEntity) (hlive : entity ∈ self.m_UpdateCallbacks) :
    (Impl.createCancelWatchFunctor entity.node, [entity]) ∈ registeredFrom Impl.ctor ops0 ∧
    Op.cancel (Impl.createCancelWatchFunctor entity.node) ∉ ops0 ∧
    ∀ h, (h, [entity]) ∈ registeredFrom Impl.ctor ops0 →
      h = Impl.createCancelWatchFunctor entity.node := by
  have ht := run_Tracks ops0 Impl.ctor self tr0 (0, []) h0 Impl.Tracks_ctor
  have hv : handlesLive (0, []) ops0 = true :=
    (run_isSome_iff ops0 Impl.ctor (0, []) Impl.Tracks_ctor).1 (by rw [h0]; rfl)
  have hsub : self.m_UpdateCallbacks.map CallbackEntity.subscription = neverCancelled ops0 := by
    rw [← liveSubscriptions_eq_neverCancelled ops0 hv]
    exact ht.2.2.2.2
  have hreg := registeredFrom_eq ops0 Impl.ctor self tr0 (0, []) Impl.Tracks_ctor h0
  have hmem : entity.subscription ∈ neverCancelled ops0 := by
    rw [← hsub]; exact List.mem_map_of_mem _ hlive
  obtain ⟨hin, hnot⟩ := List.mem_filter.1 hmem
  have hflag : entity.isSubscribed = true := (ht.1 entity hlive).1
  have hent : entity = ⟨entity.subscription.2, true, entity.subscription.1⟩ := by
    obtain ⟨cb, fl, n⟩ := entity
    simp only at hflag
    subst hflag
    rfl
  refine ⟨?_, ?_, ?_⟩
  · rw [hreg]
    refine List.mem_map.2 ⟨entity.subscription, hin, ?_⟩
    rw [← hent]
    rfl
  · simpa [CallbackEntity.subscription, Impl.createCancelWatchFunctor] using hnot
  · intro h hh
    rw [hreg] at hh
    obtain ⟨p, _, hp⟩ := List.mem_map.1 hh
    simp only [Prod.mk.injEq, List.cons.injEq, and_true] at hp
    rw [← hp.1, ← hp.2]
    rfl

/-- C7. Take a state reached from a fresh cache and a subscription `s` that is in its
list.  The record of `s` was appended by a `WatchForUpdates` call of the history, and the
cancel functor of `s` is the functor which that call returned; it has not been called so
far.  Calling it succeeds and drops exactly the record of `s`.  After it, along every
further sequence of operations, no `Update` invokes `s` (no invocation of its record occurs
in the trace, nor in an `Update` made at the end); an `Update` invokes exactly the records
then in the list, each exactly once; and every other subscription that was in the list and
whose own returned functor is not called in the sequence is still among them, whether or
not it was registered with the very same callback. -/
theorem C7_cancellation_stops_delivery (ops0 : List Op) (tr0 : List Event) (self : Impl)
    (h0 : run Impl.ctor ops0 = some (tr0, self))
    (entity : CallbackEntity) (hlive : entity ∈ self.m_UpdateCallbacks) :
    (∃ h, (h, [entity]) ∈ registeredFrom Impl.ctor ops0) ∧
    ∀ h, (h, [entity]) ∈ registeredFrom Impl.ctor ops0 →
      Op.cancel h ∉ ops0 ∧
      ∃ next, h.call self = some next ∧
        next.m_UpdateCallbacks
          = self.m_UpdateCallbacks.filter (fun x => decide (x.node ≠ entity.node)) ∧
        ∀ (ops : List Op) (tr : List Event) (last : Impl), run next ops = some (tr, last) →
          (∀ cb, Event.callback entity.node cb ∉ tr) ∧
          (∀ c y d cb, Event.callback entity.node cb ∉ (last.Update c y d).1) ∧
          (∀ c y d, (last.Update c y d).1
            = last.m_UpdateCallbacks.map CallbackEntity.invocation) ∧
          (∀ x ∈ last.m_UpdateCallbacks, ∀ c y d,
            ((last.Update c y d).1).count x.invocation = 1) ∧
          (∀ other ∈ self.m_UpdateCallbacks, other ≠ entity →
            ∀ h2, (h2, [other]) ∈ registeredFrom Impl.ctor ops0 → Op.cancel h2 ∉ ops →
            other ∈ last.m_UpdateCallbacks ∧
            ∀ c y d, ((last.Update c y d).1).count other.invocation = 1) := by
  have ht := run_Tracks ops0 Impl.ctor self tr0 (0, []) h0 Impl.Tracks_ctor
  obtain ⟨hreg, hnot, huniq⟩ := live_registered ops0 tr0 self h0 entity hlive
  refine ⟨⟨_, hreg⟩, ?_⟩
  intro h hh
  have hh2 := huniq h hh
  subst hh2
  refine ⟨hnot, ?_⟩
  obtain ⟨next, hcall, hlist, ht1, hlt, hgone⟩ := cancel_live self _ ht entity hlive
  refine ⟨next, hcall, hlist, ?_⟩
  intro ops tr last hr
  have hlast := run_Tracks ops next last tr _ hr ht1
  have habs := run_absent ops next last tr _ entity.node hr ht1 hlt hgone
  have hev : ∀ c y d, (last.Update c y d).1
      = last.m_UpdateCallbacks.map CallbackEntity.invocation :=
    fun c y d => Impl.Update_events_Tracks last _ hlast c y d
  have hone : ∀ x ∈ last.m_UpdateCallbacks, ∀ c y d,
      ((last.Update c y d).1).count x.invocation = 1 := by
    intro x hx c y d
    rw [hev c y d]
    exact count_invocation _ hlast.2.1 x hx
  refine ⟨habs.1, ?_, hev, hone, ?_⟩
  · intro c y d cb hcb
    rw [hev c y d] at hcb
    obtain ⟨x, hx, hxe⟩ := List.mem_map.1 hcb
    simp only [CallbackEntity.invocation, Event.callback.injEq] at hxe
    exact habs.2.2 (by rw [← hxe.1]; exact List.mem_map_of_mem _ hx)
  · intro other hother hne h2 hh2 hno
    have hother2 := (live_registered ops0 tr0 self h0 other hother).2.2 h2 hh2
    subst hother2
    have hnode : other.node ≠ entity.node := by
      intro e
      exact hne (List.inj_on_of_nodup_map ht.2.1 hother hlive e)
    have hnext : other ∈ next.m_UpdateCallbacks := by
      rw [hlist]
      simp [List.mem_filter, hother, hnode]
    have hno2 : ∀ g, Op.cancel g ∈ ops → g.isSubscribed ≠ other.node := by
      intro g hg e
      apply hno
      have hg2 : g = Impl.createCancelWatchFunctor other.node := by
        cases g with
        | mk r =>
          simp only at e
          subst e
          rfl
      rw [← hg2]; exact hg
    have hmem := run_persists ops next last tr _ other hr ht1 hnext hno2
    exact ⟨hmem, hone other hmem⟩

/-- C7, at a concrete input: two subscriptions registered with the same callback; the
functor returned by the second registration is called and the first subscription stays. -/
theorem C7_cancellation_stops_delivery_witness :
    run Impl.ctor [Op.WatchForUpdates 10, Op.WatchForUpdates 10]
      = some ([], ⟨[⟨10, true, 0⟩, ⟨10, true, 1⟩], some [⟨10, true, 0⟩, ⟨10, true, 1⟩], [], 2⟩) ∧
    (⟨10, true, 1⟩ : CallbackEntity) ∈ [(⟨10, true, 0⟩ : CallbackEntity), ⟨10, true, 1⟩] ∧
    ((Impl.ctor.WatchForUpdates 10).2.WatchForUpdates 10).1 = ⟨1⟩ ∧
    ((⟨1⟩ : CancelWatchFunc), [(⟨10, true, 1⟩ : CallbackEntity)])
      ∈ registeredFrom Impl.ctor [Op.WatchForUpdates 10, Op.WatchForUpdates 10] ∧
    ∃ next, (⟨1⟩ : CancelWatchFunc).call
        ⟨[⟨10, true, 0⟩, ⟨10, true, 1⟩], some [⟨10, true, 0⟩, ⟨10, true, 1⟩], [], 2⟩ = some next ∧
      next.m_UpdateCallbacks = [⟨10, true, 0⟩] :=
  ⟨by decide, by decide, by decide, by decide,
    ((C7_cancellation_stops_delivery [Op.WatchForUpdates 10, Op.WatchForUpdates 10] []
      ⟨[⟨10, true, 0⟩, ⟨10, true, 1⟩], some [⟨10, true, 0⟩, ⟨10, true, 1⟩], [], 2⟩
      (by decide) ⟨10, true, 1⟩ (by decide)).2 ⟨1⟩ (by decide)).2.imp
      (fun _ hx => ⟨hx.1, hx.2.1⟩)⟩

/-! ## Threads that race on one key -/

/-- `Get` is its locked block followed by the call it makes after the lock is released. -/
theorem Impl.Get_eq_locked (self : Impl) (c : ContractID) (y : Symbology) :
    self.Get c y = ⟨(self.GetLocked c y).2.1, Impl.GetUnlocked (self.GetLocked c y).1 c y,
      (self.GetLocked c y).2.2⟩ := by
  cases h : Contracts.find self.m_Contracts (c, y) <;>
    simp [Impl.Get, Impl.GetLocked, Impl.GetUnlocked, h]

theorem Impl.GetLocked_spec (self : Impl) (c : ContractID) (y : Symbology) :
    (self.GetLocked c y).1 = (Contracts.find self.m_Contracts (c, y)).isSome ∧
    (self.GetLocked c y).2.1
      = (Contracts.find self.m_Contracts (c, y)).getD ⟨Status.InProgress, none⟩ ∧
    Contracts.find (self.GetLocked c y).2.2.m_Contracts (c, y)
      = some ((Contracts.find self.m_Contracts (c, y)).getD ⟨Status.InProgress, none⟩) := by
  cases h : Contracts.find self.m_Contracts (c, y) with
  | none =>
    have e := Contracts.find_insert self.m_Contracts (c, y) (Result.ofStatus Status.InProgress)
      (c, y)
    rw [h] at e
    simp [Impl.GetLocked, h, Contracts.insert_snd, Result.ofStatus] at e ⊢
    exact e
  | some r => simp [Impl.GetLocked, h]

theorem Racing.step_called (N : Nat) (c : ContractID) (y : Symbology) (w : Racing) (i : Nat)
    (hi : i < N) (ht : w.threads i = GetThread.called) :
    Racing.step N c y w (Sched.thread i) =
      ⟨(w.impl.GetLocked c y).2.2,
        fun j => if j = i then
          GetThread.unlocked (w.impl.GetLocked c y).1 (w.impl.GetLocked c y).2.1
        else w.threads j,
        w.trace⟩ := by
  simp [Racing.step, hi, ht]

theorem Racing.step_unlocked (N : Nat) (c : ContractID) (y : Symbology) (w : Racing) (i : Nat)
    (hi : i < N) (f : Bool) (r : Result) (ht : w.threads i = GetThread.unlocked f r) :
    Racing.step N c y w (Sched.thread i) =
      ⟨w.impl, fun j => if j = i then GetThread.returned r else w.threads j,
        w.trace ++ Impl.GetUnlocked f c y⟩ := by
  simp [Racing.step, hi, ht]

theorem Racing.step_returned (N : Nat) (c : ContractID) (y : Symbology) (w : Racing) (i : Nat)
    (r : Result) (ht : w.threads i = GetThread.returned r) :
    Racing.step N c y w (Sched.thread i) = w := by
  by_cases hi : i < N <;> simp [Racing.step, hi, ht]

theorem Racing.step_outside (N : Nat) (c : ContractID) (y : Symbology) (w : Racing) (i : Nat)
    (hi : ¬ i < N) : Racing.step N c y w (Sched.thread i) = w := by
  simp [Racing.step, hi]

theorem Racing.step_update (N : Nat) (c : ContractID) (y : Symbology) (w : Racing)
    (d : ContractDescPtr) :
    Racing.step N c y w (Sched.update d) =
      ⟨(w.impl.Update c y d).2, w.threads, w.trace ++ (w.impl.Update c y d).1⟩ := rfl

theorem requestCount_GetUnlocked (c : ContractID) (y : Symbology) (f : Bool) :
    requestCount (c, y) (Impl.GetUnlocked f c y) = if f then 0 else 1 := by
  cases f <;> simp [Impl.GetUnlocked, requestCount]

/-- Once the key has an entry and no thread owes a request, this stays so and no request
is made. -/
theorem Racing.step_Settled (N : Nat) (c : ContractID) (y : Symbology) (w : Racing)
    (a : Sched) (h : Racing.Settled N (c, y) w) :
    Racing.Settled N (c, y) (Racing.step N c y w a) ∧
      requestCount (c, y) (Racing.step N c y w a).trace = requestCount (c, y) w.trace := by
  obtain ⟨hsome, howe⟩ := h
  cases a with
  | update d =>
    rw [Racing.step_update]
    refine ⟨⟨?_, howe⟩, ?_⟩
    · simp [Impl.Update_find]
    · simp [requestCount_append, Impl.Update_requestCount]
  | thread i =>
    by_cases hi : i < N
    · cases ht : w.threads i with
      | called =>
        rw [Racing.step_called N c y w i hi ht]
        obtain ⟨s1, _, s3⟩ := Impl.GetLocked_spec w.impl c y
        refine ⟨⟨by simp [s3], ?_⟩, rfl⟩
        intro j hj
        by_cases e : j = i
        · simp only [e, if_true, s1, hsome]
          rfl
        · simpa [e] using howe j hj
      | unlocked f r =>
        rw [Racing.step_unlocked N c y w i hi f r ht]
        have hf : f = true := by
          have := howe i hi
          rw [ht] at this
          cases f with
          | false => simp [GetThread.owesRequest] at this
          | true => rfl
        subst hf
        refine ⟨⟨hsome, ?_⟩, by simp [requestCount_append, requestCount_GetUnlocked]⟩
        intro j hj
        by_cases e : j = i
        · simp [e, GetThread.owesRequest]
        · simpa [e] using howe j hj
      | returned r =>
        rw [Racing.step_returned N c y w i r ht]
        exact ⟨⟨hsome, howe⟩, rfl⟩
    · rw [Racing.step_outside N c y w i hi]
      exact ⟨⟨hsome, howe⟩, rfl⟩

theorem Racing.step_Fresh_update (N : Nat) (c : ContractID) (y : Symbology) (w : Racing)
    (d : ContractDescPtr) (h : Racing.Fresh N (c, y) w) :
    Racing.Settled N (c, y) (Racing.step N c y w (Sched.update d)) ∧
      requestCount (c, y) (Racing.step N c y w (Sched.update d)).trace = 0 := by
  obtain ⟨_, hcount, hcalled⟩ := h
  rw [Racing.step_update]
  refine ⟨⟨by simp [Impl.Update_find], ?_⟩, ?_⟩
  · intro j hj
    simp [hcalled j hj, GetThread.owesRequest]
  · simp [requestCount_append, Impl.Update_requestCount, hcount]

theorem Racing.sched_cons (N : Nat) (c : ContractID) (y : Symbology) (w : Racing) (a : Sched)
    (sch : List Sched) :
    Racing.run N c y w (a :: sch) = Racing.run N c y (Racing.step N c y w a) sch := rfl

theorem Racing.Fresh_start (N : Nat) (self : Impl) (c : ContractID) (y : Symbology)
    (hnew : Contracts.find self.m_Contracts (c, y) = none) :
    Racing.Fresh N (c, y) (Racing.start self) :=
  ⟨hnew, by simp [Racing.start, requestCount], fun _ _ => rfl⟩

theorem Racing.run_Settled (N : Nat) (c : ContractID) (y : Symbology) (sch : List Sched)
    (w : Racing) (h : Racing.Settled N (c, y) w) :
    requestCount (c, y) (Racing.run N c y w sch).trace = requestCount (c, y) w.trace := by
  induction sch generalizing w with
  | nil => rfl
  | cons a sch ih =>
    obtain ⟨s1, s2⟩ := Racing.step_Settled N c y w a h
    rw [Racing.sched_cons, ih _ s1, s2]

/-- When an `Update` on the key is applied before every lookup, the `Update` creates the
entry and no thread of the race requests the key. -/
theorem Racing.run_update_first (N : Nat) (c : ContractID) (y : Symbology) (self : Impl)
    (hnew : Contracts.find self.m_Contracts (c, y) = none) (d : ContractDescPtr)
    (sch : List Sched) :
    requestCount (c, y)
      (Racing.run N c y (Racing.start self) (Sched.update d :: sch)).trace = 0 := by
  obtain ⟨s1, s2⟩ := Racing.step_Fresh_update N c y (Racing.start self) d
    (Racing.Fresh_start N self c y hnew)
  rw [Racing.sched_cons, Racing.run_Settled N c y sch _ s1, s2]

end ContractCache

end mFIX
